import Mathlib

/-!
Verification of the echosphere-mcp memory/retrieval subsystem.

This file gives a shallow embedding, in Lean 4, of the pure core of the
TypeScript sources:

* `src/utils/min-heap.ts` (class `MinHeap`),
* `src/services/chunker.ts` / `RAGMemoryService.splitIntoChunks`,
* `src/services/rag-memory-service.ts` (`isDuplicate`, `applySemanticFirewall`,
  `saveMemory`, `loadMemory`, `loadMemoryStore`),
* the `cosineSimilarity` / `findSimilarEmbeddings` functions of the AI service,

and proves the specified properties about the embedding.

Modelling conventions:

* JavaScript strings are modelled as `List Char` (`Str`); the `\s` character
  class is modelled by `isWS`, covering the ASCII whitespace characters that
  occur in the data handled by this program.
* JavaScript numbers that only enter comparisons (scores, timestamps) are
  modelled as exact numbers (`ℚ`, `ℤ`): every floating point value is a
  rational number and comparisons on floats are exact, so this is faithful
  for code that only compares.  Arithmetic that involves `Math.sqrt`
  (`cosineSimilarity`) is modelled over `ℝ`, i.e. as ideal real arithmetic.
* A thrown exception is modelled by the `Except.error` constructor carrying
  the message; `fs` reads, embedding-provider calls and the LLM call are
  external collaborators and enter the model as explicit outcome parameters.
* `Array.prototype.sort` is a stable sort; it is modelled by
  `List.insertionSort`, which is stable and realizes the same (unique)
  stable-sort semantics for the comparators used here.
-/

set_option maxHeartbeats 1600000

namespace Echo

/-- JavaScript strings, modelled as lists of characters. -/
abbrev Str := List Char

/-- Character class `\s` of JavaScript regular expressions, restricted to the
ASCII whitespace characters. -/
def isWS (c : Char) : Bool :=
  c = ' ' || c = '\n' || c = '\t' || c = '\r' || c = '\x0c' || c = '\x0b'

/-- Model of `String.prototype.trim`: drop `\s` characters from both ends. -/
def trimL (s : Str) : Str :=
  ((s.dropWhile isWS).reverse.dropWhile isWS).reverse

@[simp] theorem trimL_nil : trimL [] = [] := rfl

/-- The trimmed string is a sublist of the original string. -/
theorem trimL_sublist (s : Str) : (trimL s).Sublist s := by
  have h1 : ((s.dropWhile isWS).reverse.dropWhile isWS).Sublist (s.dropWhile isWS).reverse :=
    (List.dropWhile_suffix _).sublist
  have h2 : ((s.dropWhile isWS).reverse.dropWhile isWS).reverse.Sublist (s.dropWhile isWS) := by
    simpa using h1.reverse
  exact h2.trans (List.dropWhile_suffix _).sublist

theorem trimL_length_le (s : Str) : (trimL s).length ≤ s.length :=
  (trimL_sublist s).length_le

/-- Characters of the trimmed string come from the original string. -/
theorem mem_of_mem_trimL {s : Str} {c : Char} (h : c ∈ trimL s) : c ∈ s :=
  (trimL_sublist s).mem h

theorem trimL_eq_nil_of_all_ws (s : Str) (h : ∀ c ∈ s, isWS c) : trimL s = [] := by
  have h1 : s.dropWhile isWS = [] := List.dropWhile_eq_nil_iff.mpr h
  unfold trimL
  rw [h1]
  rfl

theorem exists_not_ws_of_trimL_ne_nil {s : Str} (h : trimL s ≠ []) :
    ∃ c ∈ s, ¬ isWS c := by
  by_contra hall
  push_neg at hall
  exact h (trimL_eq_nil_of_all_ws s (by simpa using hall))

theorem trimL_ne_nil_of_not_ws {s : Str} {c : Char} (hc : c ∈ s) (hw : ¬ isWS c) :
    trimL s ≠ [] := by
  intro hnil
  have h1 : s.dropWhile isWS ≠ [] := by
    intro hd
    exact hw (List.dropWhile_eq_nil_iff.mp hd c hc)
  obtain ⟨a, t, hat⟩ := List.exists_cons_of_ne_nil h1
  have ha : ¬ isWS a := by
    have h := List.head_dropWhile_not isWS s (by simp [hat])
    have heq : (s.dropWhile isWS).head (by simp [hat]) = a := by simp [hat]
    rw [heq] at h
    simp [h]
  have hmem : a ∈ (s.dropWhile isWS).reverse.reverse := by simp [hat]
  unfold trimL at hnil
  rw [List.reverse_eq_nil_iff, List.dropWhile_eq_nil_iff] at hnil
  -- the last character of `(s.dropWhile isWS).reverse` is `a`, which is not whitespace
  have : (s.dropWhile isWS).reverse ≠ [] := by simp [hat]
  exact ha (hnil a (by rw [List.mem_reverse]; simpa using hmem))

/-! ### Vector math (`cosineSimilarity`, ai-service / vector-math)

The TypeScript function is

    export function cosineSimilarity(a: number[], b: number[]): number {
      if (a.length !== b.length) { throw new Error("Vectors must have the same length"); }
      let dotProduct = 0; let normA = 0; let normB = 0;
      for (let i = 0; i < a.length; i++) {
        dotProduct += a[i] * b[i]; normA += a[i] * a[i]; normB += b[i] * b[i];
      }
      normA = Math.sqrt(normA); normB = Math.sqrt(normB);
      if (normA === 0 || normB === 0) { return 0; }
      return dotProduct / (normA * normB);
    }

Input vectors are finite lists of floats, hence of rationals; the arithmetic
(including `Math.sqrt`) is modelled as ideal real arithmetic. -/

/-- Accumulation loop of `cosineSimilarity`: starting from accumulators
`(dotProduct, normA, normB)`, add `aᵢ*bᵢ`, `aᵢ*aᵢ` and `bᵢ*bᵢ` for each index. -/
def cosLoop : List ℚ → List ℚ → ℚ × ℚ × ℚ → ℚ × ℚ × ℚ
  | a :: as, b :: bs, (d, na, nb) => cosLoop as bs (d + a * b, na + a * a, nb + b * b)
  | _, _, acc => acc

/-- Dot product of the zipped vectors, as a list sum. -/
def dotQ (l : List (ℚ × ℚ)) : ℚ := (l.map fun p => p.1 * p.2).sum

/-- Sum of squares of a vector. -/
def sumSq (v : List ℚ) : ℚ := (v.map fun x => x * x).sum

theorem sumSq_nonneg (v : List ℚ) : 0 ≤ sumSq v := by
  induction v with
  | nil => simp [sumSq]
  | cons x t ih =>
    simp only [sumSq, List.map_cons, List.sum_cons]
    have := mul_self_nonneg x
    simp only [sumSq] at ih
    linarith

theorem cosLoop_eq (a b : List ℚ) (d na nb : ℚ) :
    cosLoop a b (d, na, nb) =
      (d + dotQ (a.zip b), na + sumSq (a.take b.length), nb + sumSq (b.take a.length)) := by
  induction a generalizing b d na nb with
  | nil => cases b <;> simp [cosLoop, dotQ, sumSq]
  | cons x as ih =>
    cases b with
    | nil => simp [cosLoop, dotQ, sumSq]
    | cons y bs =>
      simp only [cosLoop, ih, List.zip_cons_cons, dotQ, List.map_cons, List.sum_cons,
        List.length_cons, List.take_succ_cons, sumSq, Prod.mk.injEq]
      refine ⟨by ring, by ring, by ring⟩

/-- Cauchy–Schwarz over zipped lists:
`(Σ xᵢ yᵢ)² ≤ (Σ xᵢ²) (Σ yᵢ²)`. -/
theorem dotQ_sq_le (l : List (ℚ × ℚ)) :
    dotQ l ^ 2 ≤ sumSq (l.map Prod.fst) * sumSq (l.map Prod.snd) := by
  induction l with
  | nil => simp [dotQ, sumSq]
  | cons p t ih =>
    obtain ⟨x, y⟩ := p
    have hA : 0 ≤ sumSq (t.map Prod.fst) := sumSq_nonneg _
    have hB : 0 ≤ sumSq (t.map Prod.snd) := sumSq_nonneg _
    simp only [dotQ, sumSq, List.map_cons, List.sum_cons] at ih ⊢
    set d := (t.map fun p => p.1 * p.2).sum with hd
    set A := ((t.map Prod.fst).map fun x => x * x).sum with hA2
    set B := ((t.map Prod.snd).map fun x => x * x).sum with hB2
    simp only [sumSq] at hA hB
    rw [← hA2] at hA
    rw [← hB2] at hB
    rcases hB.eq_or_gt with hB0 | hBpos
    · have hd0 : d = 0 := by nlinarith [sq_nonneg d]
      simp only [hd0, hB0]
      nlinarith [mul_nonneg hA (sq_nonneg y)]
    · nlinarith [sq_nonneg (x * B - y * d),
        mul_nonneg (sub_nonneg.mpr ih) (sq_nonneg y),
        mul_nonneg (sub_nonneg.mpr ih) hB]

open Classical in
/-- Model of `cosineSimilarity` (ai-service.ts / vector-math.ts).  A thrown
`Error` is an `Except.error` carrying the message. -/
noncomputable def cosineSimilarity (a b : List ℚ) : Except Str ℝ :=
  if a.length ≠ b.length then .error ("Vectors must have the same length".toList)
  else
    let acc := cosLoop a b (0, 0, 0)
    let normA := Real.sqrt (acc.2.1 : ℝ)
    let normB := Real.sqrt (acc.2.2 : ℝ)
    if normA = 0 ∨ normB = 0 then .ok 0
    else .ok ((acc.1 : ℝ) / (normA * normB))

theorem cosineSimilarity_length_ne {a b : List ℚ} (h : a.length ≠ b.length) :
    cosineSimilarity a b = .error ("Vectors must have the same length".toList) := by
  simp [cosineSimilarity, h]

theorem cosineSimilarity_eq_of_length_eq {a b : List ℚ} (h : a.length = b.length) :
    cosineSimilarity a b =
      (if Real.sqrt ((sumSq a : ℚ) : ℝ) = 0 ∨ Real.sqrt ((sumSq b : ℚ) : ℝ) = 0 then .ok 0
       else .ok (((dotQ (a.zip b) : ℚ) : ℝ) /
         (Real.sqrt ((sumSq a : ℚ) : ℝ) * Real.sqrt ((sumSq b : ℚ) : ℝ)))) := by
  have hb : a.take b.length = a := by rw [← h]; exact List.take_length a
  have ha : b.take a.length = b := by rw [h]; exact List.take_length b
  simp only [cosineSimilarity, h]
  rw [cosLoop_eq, hb, ha]
  simp

/-- A zero-magnitude vector makes `cosineSimilarity` return `0` (no failure). -/
theorem cosineSimilarity_zero_mag {a b : List ℚ} (h : a.length = b.length)
    (h0 : sumSq a = 0 ∨ sumSq b = 0) :
    cosineSimilarity a b = .ok 0 := by
  rw [cosineSimilarity_eq_of_length_eq h]
  rcases h0 with h0 | h0 <;> simp [h0]

/-- On equal-length inputs the result is a real number in `[-1, 1]`. -/
theorem cosineSimilarity_mem_Icc {a b : List ℚ} {r : ℝ}
    (h : cosineSimilarity a b = .ok r) : -1 ≤ r ∧ r ≤ 1 := by
  by_cases hlen : a.length = b.length
  · rw [cosineSimilarity_eq_of_length_eq hlen] at h
    by_cases hz : Real.sqrt ((sumSq a : ℚ) : ℝ) = 0 ∨ Real.sqrt ((sumSq b : ℚ) : ℝ) = 0
    · rw [if_pos hz] at h
      cases h
      norm_num
    · rw [if_neg hz] at h
      push_neg at hz
      cases h
      have hA : (0 : ℝ) ≤ ((sumSq a : ℚ) : ℝ) := by exact_mod_cast sumSq_nonneg a
      have hB : (0 : ℝ) ≤ ((sumSq b : ℚ) : ℝ) := by exact_mod_cast sumSq_nonneg b
      have hsA : 0 < Real.sqrt ((sumSq a : ℚ) : ℝ) :=
        lt_of_le_of_ne (Real.sqrt_nonneg _) (Ne.symm hz.1)
      have hsB : 0 < Real.sqrt ((sumSq b : ℚ) : ℝ) :=
        lt_of_le_of_ne (Real.sqrt_nonneg _) (Ne.symm hz.2)
      have hfst : (a.zip b).map Prod.fst = a := List.map_fst_zip a b (le_of_eq hlen)
      have hsnd : (a.zip b).map Prod.snd = b := List.map_snd_zip a b (le_of_eq hlen.symm)
      have hcs : dotQ (a.zip b) ^ 2 ≤ sumSq a * sumSq b := by
        have := dotQ_sq_le (a.zip b)
        rwa [hfst, hsnd] at this
      have hcsR : ((dotQ (a.zip b) : ℚ) : ℝ) ^ 2 ≤ ((sumSq a : ℚ) : ℝ) * ((sumSq b : ℚ) : ℝ) := by
        exact_mod_cast hcs
      have habs : |((dotQ (a.zip b) : ℚ) : ℝ)| ≤
          Real.sqrt ((sumSq a : ℚ) : ℝ) * Real.sqrt ((sumSq b : ℚ) : ℝ) := by
        have h1 : |((dotQ (a.zip b) : ℚ) : ℝ)| =
            Real.sqrt (((dotQ (a.zip b) : ℚ) : ℝ) ^ 2) := (Real.sqrt_sq_eq_abs _).symm
        have h2 : Real.sqrt ((sumSq a : ℚ) : ℝ) * Real.sqrt ((sumSq b : ℚ) : ℝ) =
            Real.sqrt (((sumSq a : ℚ) : ℝ) * ((sumSq b : ℚ) : ℝ)) := (Real.sqrt_mul hA _).symm
        rw [h1, h2]
        exact Real.sqrt_le_sqrt hcsR
      have hdiv : |((dotQ (a.zip b) : ℚ) : ℝ) /
          (Real.sqrt ((sumSq a : ℚ) : ℝ) * Real.sqrt ((sumSq b : ℚ) : ℝ))| ≤ 1 := by
        rw [abs_div, abs_of_pos (mul_pos hsA hsB)]
        exact div_le_one_of_le₀ habs (le_of_lt (mul_pos hsA hsB))
      constructor
      · exact neg_le_of_abs_le hdiv
      · exact le_of_abs_le hdiv
  · rw [cosineSimilarity_length_ne hlen] at h
    cases h

theorem cosineSimilarity_ex1 : cosineSimilarity [1, 0] [1, 0] = .ok 1 := by
  rw [cosineSimilarity_eq_of_length_eq rfl]
  have h1 : sumSq [(1 : ℚ), 0] = 1 := by norm_num [sumSq]
  have h2 : dotQ ([(1 : ℚ), 0].zip [(1 : ℚ), 0]) = 1 := by
    norm_num [dotQ, List.zip_cons_cons]
  rw [h1, h2]
  norm_num

theorem cosineSimilarity_ex2 : cosineSimilarity [1, 0] [0, 1] = .ok 0 := by
  rw [cosineSimilarity_eq_of_length_eq
    (show ([1, 0] : List ℚ).length = ([0, 1] : List ℚ).length from rfl)]
  have h1 : sumSq [(1 : ℚ), 0] = 1 := by norm_num [sumSq]
  have h1b : sumSq [(0 : ℚ), 1] = 1 := by norm_num [sumSq]
  have h2 : dotQ ([(1 : ℚ), 0].zip [(0 : ℚ), 1]) = 0 := by
    norm_num [dotQ, List.zip_cons_cons]
  rw [h1, h1b, h2]
  norm_num

theorem cosineSimilarity_ex3 : cosineSimilarity [0, 0] [1, 1] = .ok 0 :=
  cosineSimilarity_zero_mag rfl (Or.inl (by norm_num [sumSq]))

/-- C6: `cosineSimilarity` fails with the length-validation error on vectors of
unequal length; a zero-magnitude vector yields `0` instead of a failure; every
successful result lies in `[-1, 1]`; and the three concrete examples
`([1,0],[1,0]) ↦ 1`, `([1,0],[0,1]) ↦ 0`, `([0,0],[1,1]) ↦ 0` hold. -/
theorem claim_C6_cosineSimilarity_contract :
    (∀ a b : List ℚ, a.length ≠ b.length →
        cosineSimilarity a b = .error ("Vectors must have the same length".toList))
    ∧ (∀ a b : List ℚ, a.length = b.length → sumSq a = 0 ∨ sumSq b = 0 →
        cosineSimilarity a b = .ok 0)
    ∧ (∀ (a b : List ℚ) (r : ℝ), cosineSimilarity a b = .ok r → -1 ≤ r ∧ r ≤ 1)
    ∧ cosineSimilarity [1, 0] [1, 0] = .ok 1
    ∧ cosineSimilarity [1, 0] [0, 1] = .ok 0
    ∧ cosineSimilarity [0, 0] [1, 1] = .ok 0 :=
  ⟨fun _ _ h => cosineSimilarity_length_ne h,
   fun _ _ h h0 => cosineSimilarity_zero_mag h h0,
   fun _ _ _ h => cosineSimilarity_mem_Icc h,
   cosineSimilarity_ex1, cosineSimilarity_ex2, cosineSimilarity_ex3⟩

/-- Witness for C6: the hypothesis-bearing conjuncts applied at concrete inputs. -/
theorem claim_C6_cosineSimilarity_contract_witness :
    cosineSimilarity [(1 : ℚ)] [] = .error ("Vectors must have the same length".toList)
    ∧ cosineSimilarity [(0 : ℚ), 0] [1, 1] = .ok 0
    ∧ (-1 ≤ (1 : ℝ) ∧ (1 : ℝ) ≤ 1) :=
  ⟨claim_C6_cosineSimilarity_contract.1 [1] [] (by decide),
   claim_C6_cosineSimilarity_contract.2.1 [0, 0] [1, 1] (by norm_num) (Or.inl (by norm_num [sumSq])),
   claim_C6_cosineSimilarity_contract.2.2.1 [1, 0] [1, 0] 1
     claim_C6_cosineSimilarity_contract.2.2.2.1⟩

/-! ### Data model (shared/types.ts)

`MemoryChunk.timestamp` is an ISO date string in the source; the code only
ever consumes it through `new Date(ts).getTime()`, and the translation is
order-preserving, so the model stores the numeric value (`ℤ`) directly.
`metadata` is an untyped JS record that no modelled code path inspects; it is
omitted.  `embedding` is checked for presence (`if (chunk.embedding)`) by the
deduplication code, so it is modelled as an `Option`; note that a present
empty array is truthy in JS and is modelled by `some []`. -/

structure MemoryChunk where
  id : Str
  content : Str
  embedding : Option (List ℚ)
  timestamp : ℤ
  tags : List Str
  docId : Option Str
  source : Option Str
  contentHash : Str
  chunkIndex : ℕ
  chunkCount : ℕ
  embeddingModel : Str
deriving DecidableEq

structure MemoryResult where
  success : Bool
  content : Option Str
  size : Option ℕ
  error : Option Str
  relevantChunks : Option (List MemoryChunk)
  generatedResponse : Option Str
deriving DecidableEq

/-- JavaScript truthiness of an optional string: truthy iff present and
non-empty (the empty string is falsy). -/
def strTruthy : Option Str → Bool
  | none => false
  | some s => !s.isEmpty

/-! ### Content hashing (`generateContentHash`)

The source normalizes (`trim`, collapse `\s+` to a single space, lowercase)
and then takes the first 16 hex characters of the SHA-256 digest.  The digest
step is modelled by the identity on the normalized content: every proof below
uses only that the hash is a deterministic function of the normalized
content, never any property of SHA-256 itself. -/

/-- Model of `String.prototype.replace(/\s+/g, ' ')`: every maximal run of
whitespace becomes a single space.  The boolean argument records whether the
previous character was part of a whitespace run. -/
def squeezeWS : Bool → Str → Str
  | _, [] => []
  | prevWS, c :: cs =>
    if isWS c then
      (if prevWS then squeezeWS true cs else ' ' :: squeezeWS true cs)
    else c :: squeezeWS false cs

/-- Model of `generateContentHash` (rag-memory-service.ts, deduplicator). -/
def generateContentHash (content : Str) : Str :=
  (squeezeWS false (trimL content)).map Char.toLower

/-! ### Deduplication (`isDuplicate`, rag-memory-service.ts lines 36–58 and
the `Deduplicator` service, which are identical)

    for (const existing of existingChunks) {
      if (docId && existing.docId && docId !== existing.docId) { continue; }
      if (existing.contentHash === newChunk.contentHash) { return true; }
      if (newChunk.embedding && existing.embedding) {
        const similarity = cosineSimilarity(newChunk.embedding, existing.embedding);
        if (similarity >= this.SIMILARITY_DEDUP_THRESHOLD) { return true; }
      }
    }
    return false;
-/

def SIMILARITY_DEDUP_THRESHOLD : ℝ := 0.95

/-- Candidate chunk passed to `isDuplicate` during a save. -/
structure CandidateChunk where
  content : Str
  contentHash : Str
  embedding : Option (List ℚ)

open Classical in
/-- Model of `isDuplicate`.  A length-mismatch exception raised by
`cosineSimilarity` propagates (the loop performs no catching). -/
noncomputable def isDuplicate (newChunk : CandidateChunk) (existingChunks : List MemoryChunk)
    (docId : Option Str) : Except Str Bool :=
  match existingChunks with
  | [] => .ok false
  | existing :: rest =>
    if strTruthy docId && strTruthy existing.docId && decide (docId ≠ existing.docId) then
      isDuplicate newChunk rest docId
    else if existing.contentHash = newChunk.contentHash then .ok true
    else
      match newChunk.embedding, existing.embedding with
      | some ne, some ee =>
        match cosineSimilarity ne ee with
        | .error e => .error e
        | .ok sim =>
          if SIMILARITY_DEDUP_THRESHOLD ≤ sim then .ok true
          else isDuplicate newChunk rest docId
      | _, _ => isDuplicate newChunk rest docId

/-- An existing chunk is in scope for deduplication unless both the save's
`docId` and the chunk's `docId` are truthy (present and non-empty) and differ. -/
def inScope (docId : Option Str) (existing : MemoryChunk) : Prop :=
  ¬ (strTruthy docId ∧ strTruthy existing.docId ∧ docId ≠ existing.docId)

instance (docId : Option Str) (existing : MemoryChunk) : Decidable (inScope docId existing) := by
  unfold inScope
  infer_instance

/-- A single existing chunk matches the candidate: equal content hash, or both
embeddings present with cosine similarity at or above the threshold. -/
def isDupMatch (c : CandidateChunk) (e : MemoryChunk) : Prop :=
  e.contentHash = c.contentHash ∨
    ∃ ne ee sim, c.embedding = some ne ∧ e.embedding = some ee ∧
      cosineSimilarity ne ee = .ok sim ∧ SIMILARITY_DEDUP_THRESHOLD ≤ sim

/-- Embedding-length compatibility of a candidate with a list of existing
chunks: every in-scope pair of present embeddings has equal lengths, so no
`cosineSimilarity` call can throw. -/
def LengthCompatible (c : CandidateChunk) (l : List MemoryChunk) (docId : Option Str) : Prop :=
  ∀ e ∈ l, inScope docId e → ∀ ne ee, c.embedding = some ne → e.embedding = some ee →
    ne.length = ee.length

theorem isDuplicate_ok_true_iff (c : CandidateChunk) (l : List MemoryChunk)
    (docId : Option Str) (hlen : LengthCompatible c l docId) :
    isDuplicate c l docId = .ok true ↔ ∃ e ∈ l, inScope docId e ∧ isDupMatch c e := by
  induction l with
  | nil => simp [isDuplicate]
  | cons existing rest ih =>
    have hlenr : LengthCompatible c rest docId := fun e he => hlen e (List.mem_cons_of_mem _ he)
    by_cases hskip : strTruthy docId ∧ strTruthy existing.docId ∧ docId ≠ existing.docId
    · have hskipb : (strTruthy docId && strTruthy existing.docId &&
          decide (docId ≠ existing.docId)) = true := by
        simp [hskip.1, hskip.2.1, hskip.2.2]
      rw [isDuplicate, hskipb]
      simp only [if_true]
      rw [ih hlenr]
      constructor
      · rintro ⟨e, he, hs, hm⟩
        exact ⟨e, List.mem_cons_of_mem _ he, hs, hm⟩
      · rintro ⟨e, he, hs, hm⟩
        rcases List.mem_cons.mp he with rfl | he2
        · exact absurd hskip hs
        · exact ⟨e, he2, hs, hm⟩
    · have hscope : inScope docId existing := hskip
      have hskipb : (strTruthy docId && strTruthy existing.docId &&
          decide (docId ≠ existing.docId)) = false := by
        rcases Decidable.not_and_iff_or_not.mp hskip with h | h2
        · simp [h]
        · rcases Decidable.not_and_iff_or_not.mp h2 with h | h
          · simp [h]
          · simp [h]
      rw [isDuplicate, hskipb]
      simp only [Bool.false_eq_true, if_false]
      by_cases hhash : existing.contentHash = c.contentHash
      · simp only [hhash, if_true]
        constructor
        · intro _
          exact ⟨existing, List.mem_cons_self _ _, hscope, Or.inl hhash⟩
        · intro _
          trivial
      · simp only [hhash, if_false]
        cases hce : c.embedding with
        | none =>
          rw [ih hlenr]
          constructor
          · rintro ⟨e, he, hs, hm⟩
            exact ⟨e, List.mem_cons_of_mem _ he, hs, hm⟩
          · rintro ⟨e, he, hs, hm⟩
            rcases List.mem_cons.mp he with rfl | he2
            · rcases hm with hm | ⟨ne, ee, sim, hne, _⟩
              · exact absurd hm hhash
              · rw [hce] at hne
                cases hne
            · exact ⟨e, he2, hs, hm⟩
        | some ne =>
          cases hee : existing.embedding with
          | none =>
            rw [ih hlenr]
            constructor
            · rintro ⟨e, he, hs, hm⟩
              exact ⟨e, List.mem_cons_of_mem _ he, hs, hm⟩
            · rintro ⟨e, he, hs, hm⟩
              rcases List.mem_cons.mp he with rfl | he2
              · rcases hm with hm | ⟨ne2, ee, sim, hne, hee2, _⟩
                · exact absurd hm hhash
                · rw [hee] at hee2
                  cases hee2
              · exact ⟨e, he2, hs, hm⟩
          | some ee =>
            have hll : ne.length = ee.length :=
              hlen existing (List.mem_cons_self _ _) hscope ne ee hce hee
            rcases hok : cosineSimilarity ne ee with msg | sim
            · exact absurd hok (by rw [cosineSimilarity_eq_of_length_eq hll]; split <;> simp)
            · by_cases hsim : SIMILARITY_DEDUP_THRESHOLD ≤ sim
              · simp only [hok, hsim, if_true]
                constructor
                · intro _
                  exact ⟨existing, List.mem_cons_self _ _, hscope,
                    Or.inr ⟨ne, ee, sim, hce, hee, hok, hsim⟩⟩
                · intro _
                  trivial
              · simp only [hok, hsim, if_false]
                rw [ih hlenr]
                constructor
                · rintro ⟨e, he, hs, hm⟩
                  exact ⟨e, List.mem_cons_of_mem _ he, hs, hm⟩
                · rintro ⟨e, he, hs, hm⟩
                  rcases List.mem_cons.mp he with rfl | he2
                  · rcases hm with hm | ⟨ne2, ee2, sim2, hne2, hee2, hcos2, hsim2⟩
                    · exact absurd hm hhash
                    · rw [hce] at hne2
                      rw [hee] at hee2
                      cases hne2
                      cases hee2
                      rw [hok] at hcos2
                      cases hcos2
                      exact absurd hsim2 hsim
                  · exact ⟨e, he2, hs, hm⟩

/-- Under length compatibility `isDuplicate` never throws. -/
theorem isDuplicate_no_error (c : CandidateChunk) (l : List MemoryChunk)
    (docId : Option Str) (hlen : LengthCompatible c l docId) :
    ∃ b, isDuplicate c l docId = .ok b := by
  induction l with
  | nil => exact ⟨false, rfl⟩
  | cons existing rest ih =>
    have hlenr : LengthCompatible c rest docId := fun e he => hlen e (List.mem_cons_of_mem _ he)
    rw [isDuplicate]
    by_cases hskip : (strTruthy docId && strTruthy existing.docId &&
        decide (docId ≠ existing.docId)) = true
    · rw [hskip]
      simpa using ih hlenr
    · rw [Bool.not_eq_true] at hskip
      rw [hskip]
      have hscope : inScope docId existing := by
        unfold inScope
        rintro ⟨h1, h2, h3⟩
        simp [h1, h2, h3] at hskip
      simp only [Bool.false_eq_true, if_false]
      by_cases hhash : existing.contentHash = c.contentHash
      · exact ⟨true, by simp [hhash]⟩
      · simp only [hhash, if_false]
        cases hce : c.embedding with
        | none => simpa using ih hlenr
        | some ne =>
          cases hee : existing.embedding with
          | none => simpa using ih hlenr
          | some ee =>
            have hll : ne.length = ee.length :=
              hlen existing (List.mem_cons_self _ _) hscope ne ee hce hee
            rcases hok : cosineSimilarity ne ee with msg | sim
            · exact absurd hok (by rw [cosineSimilarity_eq_of_length_eq hll]; split <;> simp)
            · by_cases hsim : SIMILARITY_DEDUP_THRESHOLD ≤ sim
              · exact ⟨true, by simp [hok, hsim]⟩
              · simp only [hok, hsim, if_false]
                simpa using ih hlenr

/-- An existing chunk stored under `docId = "x"`, used as a concrete test
vector by several theorems below. -/
def chunkUnderX : MemoryChunk :=
  { id := "e1".toList, content := "same content".toList, embedding := none,
    timestamp := 0, tags := [], docId := some ("x".toList), source := none,
    contentHash := "h1".toList, chunkIndex := 0, chunkCount := 1,
    embeddingModel := "m".toList }

/-- C3 counterexample: the claim states that identical content stored under a
different `docId` — with both docIds present — yields `false`.  With the
save-side `docId` being the (present but empty, hence falsy) string `""`, the
code does not skip the differing-docId chunk and returns `true` on the hash
match. -/
theorem claim_C3_counterexample :
    isDuplicate ⟨"same content".toList, "h1".toList, none⟩ [chunkUnderX]
        (some ([] : Str)) = .ok true
    ∧ some ([] : Str) ≠ chunkUnderX.docId
    ∧ chunkUnderX.contentHash = "h1".toList := by
  refine ⟨rfl, by decide, rfl⟩

/-- C3 (amended): provided every in-scope pair of present embeddings has equal
lengths (unequal lengths make the underlying `cosineSimilarity` call throw),
`isDuplicate` returns `true` exactly when some in-scope existing chunk matches
by content hash or by cosine similarity ≥ 0.95, and returns `false` exactly
when no in-scope chunk matches; an existing chunk is out of scope exactly when
the call's `docId` and the chunk's `docId` are both present *and non-empty*
and differ (an empty-string docId is falsy and never causes a skip). -/
theorem claim_C3_isDuplicate_semantics (c : CandidateChunk) (l : List MemoryChunk)
    (docId : Option Str) (hlen : LengthCompatible c l docId) :
    (isDuplicate c l docId = .ok true ↔ ∃ e ∈ l, inScope docId e ∧ isDupMatch c e)
    ∧ (isDuplicate c l docId = .ok false ↔ ¬ ∃ e ∈ l, inScope docId e ∧ isDupMatch c e) := by
  refine ⟨isDuplicate_ok_true_iff c l docId hlen, ?_⟩
  obtain ⟨b, hb⟩ := isDuplicate_no_error c l docId hlen
  rw [← isDuplicate_ok_true_iff c l docId hlen]
  cases b <;> simp [hb]

/-- Witness for C3: the amended theorem applied at a concrete call whose
`docId` is `"y"`, against a store whose only chunk lives under `"x"` with the
same content hash — out of scope, so not a duplicate. -/
theorem claim_C3_isDuplicate_semantics_witness :
    isDuplicate ⟨"same content".toList, "h1".toList, none⟩ [chunkUnderX]
        (some ("y".toList)) = .ok false ↔
      ¬ ∃ e ∈ [chunkUnderX], inScope (some ("y".toList)) e ∧
          isDupMatch ⟨"same content".toList, "h1".toList, none⟩ e :=
  (claim_C3_isDuplicate_semantics ⟨"same content".toList, "h1".toList, none⟩ [chunkUnderX]
    (some ("y".toList)) (fun _ _ _ _ _ hne _ => by cases hne)).2

/-! ### Semantic firewall (`applySemanticFirewall`, rag-memory-service.ts
lines 315–350, identical in the RetrievalService)

    if (chunks.length === 0) return chunks;
    // group by docId into a Map (insertion order), chunks without docId are orphans
    for (const chunk of chunks) {
      if (chunk.content.docId) { ...push into map... } else { orphanChunks.push(chunk); }
    }
    for (const [docId, docChunks] of chunksByDocId) {
      docChunks.sort((a, b) => b.score - a.score);
      filteredChunks.push(...docChunks.slice(0, Math.min(3, docChunks.length)));
    }
    filteredChunks.push(...orphanChunks);
    return filteredChunks.sort((a, b) => b.score - a.score);
-/

structure ScoredChunk where
  content : MemoryChunk
  score : ℚ
deriving DecidableEq

/-- Descending-score order used by the comparator `(a, b) => b.score - a.score`. -/
def scoreGE (a b : ScoredChunk) : Prop := b.score ≤ a.score

instance : DecidableRel scoreGE := fun a b => inferInstanceAs (Decidable (b.score ≤ a.score))

instance : IsTotal ScoredChunk scoreGE := ⟨fun a b => le_total b.score a.score⟩

instance : IsTrans ScoredChunk scoreGE := ⟨fun _ _ _ h1 h2 => le_trans h2 h1⟩

/-- The grouping key of a chunk: its `docId` when truthy, otherwise `none`
(the chunk is an orphan). -/
def truthyKey (c : ScoredChunk) : Option Str :=
  match c.content.docId with
  | some d => if d.isEmpty then none else some d
  | none => none

/-- Deduplication keeping first occurrences, tracking already-seen keys;
models the key set of the insertion-ordered JS `Map`. -/
def dedupFirstAux (seen : List Str) : List Str → List Str
  | [] => []
  | x :: xs =>
    if x ∈ seen then dedupFirstAux seen xs else x :: dedupFirstAux (x :: seen) xs

/-- Keys of the `chunksByDocId` map, in insertion order. -/
def groupKeys (l : List ScoredChunk) : List Str :=
  dedupFirstAux [] (l.filterMap truthyKey)

/-- The group of chunks stored under key `d`, in input order. -/
def docGroup (l : List ScoredChunk) (d : Str) : List ScoredChunk :=
  l.filter (fun c => truthyKey c = some d)

/-- Chunks without a truthy `docId`. -/
def orphanChunks (l : List ScoredChunk) : List ScoredChunk :=
  l.filter (fun c => truthyKey c = none)

/-- The top-3 slice of one document group, after the in-group descending sort. -/
def groupTop (l : List ScoredChunk) (d : Str) : List ScoredChunk :=
  (List.insertionSort scoreGE (docGroup l d)).take (min 3 (docGroup l d).length)

/-- Model of `applySemanticFirewall`. -/
def applySemanticFirewall (chunks : List ScoredChunk) : List ScoredChunk :=
  if chunks.isEmpty then chunks
  else
    List.insertionSort scoreGE
      (((groupKeys chunks).map (groupTop chunks)).flatten ++ orphanChunks chunks)

theorem mem_dedupFirstAux {seen : List Str} {l : List Str} {x : Str} :
    x ∈ dedupFirstAux seen l ↔ x ∈ l ∧ x ∉ seen := by
  induction l generalizing seen with
  | nil => simp [dedupFirstAux]
  | cons a t ih =>
    by_cases ha : a ∈ seen
    · rw [dedupFirstAux, if_pos ha, ih]
      constructor
      · rintro ⟨h1, h2⟩
        exact ⟨List.mem_cons_of_mem _ h1, h2⟩
      · rintro ⟨h1, h2⟩
        rcases List.mem_cons.mp h1 with rfl | h1
        · exact absurd ha h2
        · exact ⟨h1, h2⟩
    · rw [dedupFirstAux, if_neg ha]
      constructor
      · intro h
        rcases List.mem_cons.mp h with rfl | h
        · exact ⟨List.mem_cons_self _ _, ha⟩
        · obtain ⟨h1, h2⟩ := ih.mp h
          refine ⟨List.mem_cons_of_mem _ h1, fun hx => h2 (List.mem_cons_of_mem _ hx)⟩
      · rintro ⟨h1, h2⟩
        rcases List.mem_cons.mp h1 with rfl | h1
        · exact List.mem_cons_self _ _
        · by_cases hxa : x = a
          · subst hxa
            exact List.mem_cons_self _ _
          · exact List.mem_cons_of_mem _
              (ih.mpr ⟨h1, fun hx => (List.mem_cons.mp hx).elim hxa h2⟩)

theorem nodup_dedupFirstAux (seen : List Str) (l : List Str) :
    (dedupFirstAux seen l).Nodup := by
  induction l generalizing seen with
  | nil => exact List.nodup_nil
  | cons a t ih =>
    by_cases ha : a ∈ seen
    · rw [dedupFirstAux, if_pos ha]
      exact ih seen
    · rw [dedupFirstAux, if_neg ha]
      refine List.nodup_cons.mpr ⟨fun hmem => ?_, ih (a :: seen)⟩
      exact (mem_dedupFirstAux.mp hmem).2 (List.mem_cons_self _ _)

theorem nodup_groupKeys (l : List ScoredChunk) : (groupKeys l).Nodup :=
  nodup_dedupFirstAux [] _

theorem mem_groupKeys {l : List ScoredChunk} {d : Str} :
    d ∈ groupKeys l ↔ ∃ c ∈ l, truthyKey c = some d := by
  unfold groupKeys
  rw [mem_dedupFirstAux]
  simp [List.mem_filterMap]

/-- Count of a fixed chunk in the firewall output, in terms of the group
slices and orphan list. -/
theorem count_applySemanticFirewall (l : List ScoredChunk) (c : ScoredChunk)
    (hne : ¬ l.isEmpty) :
    (applySemanticFirewall l).count c =
      (((groupKeys l).map (groupTop l)).flatten ++ orphanChunks l).count c := by
  unfold applySemanticFirewall
  rw [if_neg (by simpa using hne)]
  exact (List.perm_insertionSort scoreGE _).count_eq c

theorem count_join_map (keys : List Str) (f : Str → List ScoredChunk) (c : ScoredChunk) :
    ((keys.map f).flatten).count c = (keys.map fun d => (f d).count c).sum := by
  induction keys with
  | nil => rfl
  | cons k t ih => simp [List.count_append, ih]

/-- Every element of a group slice carries that group's key. -/
theorem truthyKey_of_mem_groupTop {l : List ScoredChunk} {d : Str} {x : ScoredChunk}
    (hx : x ∈ groupTop l d) : truthyKey x = some d := by
  have h1 : x ∈ List.insertionSort scoreGE (docGroup l d) := List.mem_of_mem_take hx
  have h2 : x ∈ docGroup l d := (List.mem_insertionSort scoreGE).mp h1
  simpa [docGroup] using (List.mem_filter.mp h2).2

theorem count_groupTop_le (l : List ScoredChunk) (d : Str) (c : ScoredChunk) :
    (groupTop l d).count c ≤ (docGroup l d).count c := by
  calc (groupTop l d).count c
      ≤ (List.insertionSort scoreGE (docGroup l d)).count c :=
        (List.take_sublist _ _).count_le c
    _ = (docGroup l d).count c := (List.perm_insertionSort scoreGE _).count_eq c

theorem truthyKey_eq_some_iff {c : ScoredChunk} {d : Str} :
    truthyKey c = some d ↔ c.content.docId = some d ∧ d ≠ [] := by
  unfold truthyKey
  cases hdoc : c.content.docId with
  | none => simp
  | some e =>
    by_cases he : e.isEmpty
    · simp only [he, if_true]
      have : e = [] := by simpa [List.isEmpty_iff] using he
      subst this
      constructor
      · intro h
        cases h
      · rintro ⟨h1, h2⟩
        cases h1
        exact absurd rfl h2
    · simp only [he, if_false]
      constructor
      · intro h
        cases h
        exact ⟨rfl, by simpa [List.isEmpty_iff] using he⟩
      · rintro ⟨h1, _⟩
        cases h1
        rfl

theorem count_le_three_groupTop (l : List ScoredChunk) (d : Str) :
    (groupTop l d).length ≤ 3 := by
  unfold groupTop
  calc ((List.insertionSort scoreGE (docGroup l d)).take (min 3 (docGroup l d).length)).length
      ≤ min 3 (docGroup l d).length := List.length_take_le _ _
    _ ≤ 3 := min_le_left _ _

theorem countP_flatten_map (keys : List Str) (f : Str → List ScoredChunk)
    (p : ScoredChunk → Bool) :
    ((keys.map f).flatten).countP p = (keys.map fun d => (f d).countP p).sum := by
  induction keys with
  | nil => rfl
  | cons k t ih => simp [List.countP_append, ih]

/-- The flattened group slices contribute, for a predicate that is false on
every group other than `d`, exactly the `d`-slice contribution. -/
theorem countP_flatten_single (f : Str → List ScoredChunk) (p : ScoredChunk → Bool) (d : Str) :
    ∀ keys : List Str, keys.Nodup →
      (∀ e ∈ keys, e ≠ d → (f e).countP p = 0) →
      ((keys.map f).flatten).countP p = (if d ∈ keys then (f d).countP p else 0) := by
  intro keys
  induction keys with
  | nil => simp
  | cons k t ih =>
    intro hnd h0
    have hndt : t.Nodup := (List.nodup_cons.mp hnd).2
    have hknt : k ∉ t := (List.nodup_cons.mp hnd).1
    have h0t : ∀ e ∈ t, e ≠ d → (f e).countP p = 0 :=
      fun e he => h0 e (List.mem_cons_of_mem _ he)
    simp only [List.map_cons, List.flatten_cons, List.countP_append, ih hndt h0t]
    by_cases hkd : k = d
    · subst hkd
      rw [if_neg hknt, if_pos (List.mem_cons_self _ _)]
      omega
    · rw [h0 k (List.mem_cons_self _ _) hkd]
      by_cases hdt : d ∈ t
      · rw [if_pos hdt, if_pos (List.mem_cons_of_mem _ hdt)]
        omega
      · rw [if_neg hdt, if_neg (by simp [hdt, Ne.symm hkd])]

theorem count_groupTop_eq_zero {l : List ScoredChunk} {e : Str} {c : ScoredChunk}
    (hc : truthyKey c ≠ some e) : (groupTop l e).count c = 0 := by
  rw [List.count_eq_zero]
  intro hmem
  exact hc (truthyKey_of_mem_groupTop hmem)

/-- Orphan chunks (non-truthy docId) pass through with unchanged multiplicity. -/
theorem count_applySemanticFirewall_orphan {l : List ScoredChunk} {c : ScoredChunk}
    (hc : truthyKey c = none) : (applySemanticFirewall l).count c = l.count c := by
  by_cases hemp : l.isEmpty
  · have : l = [] := by simpa [List.isEmpty_iff] using hemp
    subst this
    rfl
  · rw [count_applySemanticFirewall l c hemp, List.count_append]
    have hflat : (((groupKeys l).map (groupTop l)).flatten).count c = 0 := by
      rw [List.count_eq_zero]
      intro hmem
      obtain ⟨gl, hgl, hcg⟩ := List.mem_flatten.mp hmem
      obtain ⟨e, _, rfl⟩ := List.mem_map.mp hgl
      rw [truthyKey_of_mem_groupTop hcg] at hc
      cases hc
    have horph : (orphanChunks l).count c = l.count c := by
      unfold orphanChunks
      exact List.count_filter (by simp [hc])
    rw [hflat, horph]
    omega

/-- Count of a chunk with a truthy docId in the firewall output. -/
theorem count_applySemanticFirewall_keyed {l : List ScoredChunk} {c : ScoredChunk} {d : Str}
    (hc : truthyKey c = some d) :
    (applySemanticFirewall l).count c =
      (if d ∈ groupKeys l then (groupTop l d).count c else 0) := by
  by_cases hemp : l.isEmpty
  · have : l = [] := by simpa [List.isEmpty_iff] using hemp
    subst this
    simp [applySemanticFirewall, groupKeys, dedupFirstAux]
  · rw [count_applySemanticFirewall l c hemp, List.count_append]
    have horph : (orphanChunks l).count c = 0 := by
      rw [List.count_eq_zero]
      intro hmem
      have := (List.mem_filter.mp hmem).2
      rw [hc] at this
      cases this
    have hflat : (((groupKeys l).map (groupTop l)).flatten).count c =
        (if d ∈ groupKeys l then (groupTop l d).count c else 0) := by
      have := countP_flatten_single (groupTop l) (· == c) d (groupKeys l)
        (nodup_groupKeys l)
        (fun e _ hed => by
          have h0 : (groupTop l e).count c = 0 :=
            count_groupTop_eq_zero (by rw [hc]; simpa using fun h => hed h.symm)
          simpa [List.count] using h0)
      simpa [List.count] using this
    rw [hflat, horph]
    omega

/-- The firewall output is a sub-multiset of its input. -/
theorem count_applySemanticFirewall_le (l : List ScoredChunk) (c : ScoredChunk) :
    (applySemanticFirewall l).count c ≤ l.count c := by
  cases hk : truthyKey c with
  | none => rw [count_applySemanticFirewall_orphan hk]
  | some d =>
    rw [count_applySemanticFirewall_keyed hk]
    by_cases hdk : d ∈ groupKeys l
    · rw [if_pos hdk]
      calc (groupTop l d).count c ≤ (docGroup l d).count c := count_groupTop_le l d c
        _ = l.count c := by
          unfold docGroup
          exact List.count_filter (by simp [hk])
    · rw [if_neg hdk]
      exact Nat.zero_le _

/-- The firewall output is sorted by score, descending. -/
theorem sorted_applySemanticFirewall (l : List ScoredChunk) :
    List.Sorted scoreGE (applySemanticFirewall l) := by
  unfold applySemanticFirewall
  by_cases hemp : l.isEmpty
  · rw [if_pos hemp]
    have : l = [] := by simpa [List.isEmpty_iff] using hemp
    subst this
    exact List.sorted_nil
  · rw [if_neg hemp]
    exact List.sorted_insertionSort scoreGE _

/-- At most 3 chunks of each (non-empty) docId survive the firewall. -/
theorem filter_applySemanticFirewall_le_three (l : List ScoredChunk) (d : Str) (hd : d ≠ []) :
    ((applySemanticFirewall l).filter (fun c => c.content.docId = some d)).length ≤ 3 := by
  set p : ScoredChunk → Bool := fun c => c.content.docId = some d with hp
  have hgroup0 : ∀ e ∈ groupKeys l, e ≠ d → (groupTop l e).countP p = 0 := by
    intro e _ hed
    rw [List.countP_eq_zero]
    intro x hx
    have hxk := truthyKey_of_mem_groupTop hx
    have hxdoc := (truthyKey_eq_some_iff.mp hxk).1
    simp only [hp, hxdoc, decide_eq_true_eq, Option.some.injEq]
    exact fun h => hed h
  by_cases hemp : l.isEmpty
  · have : l = [] := by simpa [List.isEmpty_iff] using hemp
    subst this
    simp [applySemanticFirewall]
  · rw [← List.countP_eq_length_filter]
    unfold applySemanticFirewall
    rw [if_neg (by simpa using hemp)]
    rw [(List.perm_insertionSort scoreGE _).countP_eq]
    rw [List.countP_append]
    have horph : (orphanChunks l).countP p = 0 := by
      rw [List.countP_eq_zero]
      intro x hx
      have hxk : truthyKey x = none := by
        simpa using (List.mem_filter.mp hx).2
      simp only [hp, decide_eq_true_eq]
      intro hxdoc
      rw [truthyKey_eq_some_iff.mpr ⟨hxdoc, hd⟩] at hxk
      cases hxk
    rw [countP_flatten_single (groupTop l) p d (groupKeys l) (nodup_groupKeys l) hgroup0, horph]
    by_cases hdk : d ∈ groupKeys l
    · rw [if_pos hdk]
      have := count_le_three_groupTop l d
      have hle : (groupTop l d).countP p ≤ (groupTop l d).length := List.countP_le_length p
      omega
    · rw [if_neg hdk]
      omega

/-- Every chunk of a given (non-empty) docId that the firewall dropped scores
no higher than any surviving chunk of the same docId. -/
theorem dropped_le_kept (l : List ScoredChunk) (d : Str) (x : ScoredChunk)
    (hx : x ∈ applySemanticFirewall l) (hxd : x.content.docId = some d)
    (y : ScoredChunk) (hyd : y.content.docId = some d)
    (hy : (applySemanticFirewall l).count y < l.count y) : y.score ≤ x.score := by
  by_cases hd : d = []
  · subst hd
    have hyk : truthyKey y = none := by
      unfold truthyKey
      rw [hyd]
      simp
    rw [count_applySemanticFirewall_orphan hyk] at hy
    omega
  · have hxk : truthyKey x = some d := truthyKey_eq_some_iff.mpr ⟨hxd, hd⟩
    have hyk : truthyKey y = some d := truthyKey_eq_some_iff.mpr ⟨hyd, hd⟩
    by_cases hemp : l.isEmpty
    · have : l = [] := by simpa [List.isEmpty_iff] using hemp
      subst this
      simp [applySemanticFirewall] at hx
    · rw [count_applySemanticFirewall_keyed hyk] at hy
      have hyl : y ∈ l := by
        by_contra hyn
        rw [List.count_eq_zero.mpr hyn] at hy
        omega
      have hdk : d ∈ groupKeys l := mem_groupKeys.mpr ⟨y, hyl, hyk⟩
      rw [if_pos hdk] at hy
      have hcnt : l.count y = (List.insertionSort scoreGE (docGroup l d)).count y := by
        rw [(List.perm_insertionSort scoreGE _).count_eq]
        unfold docGroup
        exact (List.count_filter (by simp [hyk])).symm
      rw [hcnt] at hy
      have hgsplit :
          (List.insertionSort scoreGE (docGroup l d)).take (min 3 (docGroup l d).length) ++
            (List.insertionSort scoreGE (docGroup l d)).drop (min 3 (docGroup l d).length) =
          List.insertionSort scoreGE (docGroup l d) := List.take_append_drop _ _
      have hcnt2 : (List.insertionSort scoreGE (docGroup l d)).count y =
          (groupTop l d).count y +
            ((List.insertionSort scoreGE (docGroup l d)).drop
              (min 3 (docGroup l d).length)).count y := by
        conv_lhs => rw [← hgsplit]
        exact List.count_append ..
      rw [hcnt2] at hy
      have hydrop : y ∈ (List.insertionSort scoreGE (docGroup l d)).drop
          (min 3 (docGroup l d).length) := by
        by_contra hnd
        rw [List.count_eq_zero.mpr hnd] at hy
        omega
      have hxtake : x ∈ groupTop l d := by
        unfold applySemanticFirewall at hx
        rw [if_neg (by simpa using hemp)] at hx
        rw [List.mem_insertionSort] at hx
        rcases List.mem_append.mp hx with hxf | hxo
        · obtain ⟨gl, hgl, hcg⟩ := List.mem_flatten.mp hxf
          obtain ⟨e, hek, rfl⟩ := List.mem_map.mp hgl
          have hkey := truthyKey_of_mem_groupTop hcg
          rw [hxk] at hkey
          injection hkey with he
          rw [he]
          exact hcg
        · exfalso
          have hxo2 := (List.mem_filter.mp hxo).2
          rw [hxk] at hxo2
          simp at hxo2
      have hsorted : List.Sorted scoreGE (List.insertionSort scoreGE (docGroup l d)) :=
        List.sorted_insertionSort scoreGE _
      have hpw := (List.pairwise_append.mp (by rw [hgsplit]; exact hsorted)).2.2
      exact hpw x hxtake y hydrop

/-- C2 (amended): the firewall (a) keeps at most 3 chunks of any non-empty
docId, (b) passes chunks without a truthy docId — absent *or empty-string*
docId — through with unchanged multiplicity, (c) introduces no chunks, (d)
returns a list sorted by score descending, and (e) keeps, within each docId,
only chunks scoring at least as high as every dropped chunk of that docId. -/
theorem claim_C2_applySemanticFirewall_spec (l : List ScoredChunk) :
    (∀ d : Str, d ≠ [] →
        ((applySemanticFirewall l).filter (fun c => c.content.docId = some d)).length ≤ 3)
    ∧ (∀ c : ScoredChunk, truthyKey c = none →
        (applySemanticFirewall l).count c = l.count c)
    ∧ (∀ c : ScoredChunk, (applySemanticFirewall l).count c ≤ l.count c)
    ∧ List.Sorted scoreGE (applySemanticFirewall l)
    ∧ (∀ (d : Str) (x : ScoredChunk), x ∈ applySemanticFirewall l →
        x.content.docId = some d → ∀ y : ScoredChunk, y.content.docId = some d →
        (applySemanticFirewall l).count y < l.count y → y.score ≤ x.score) :=
  ⟨fun d hd => filter_applySemanticFirewall_le_three l d hd,
   fun _ hc => count_applySemanticFirewall_orphan hc,
   fun c => count_applySemanticFirewall_le l c,
   sorted_applySemanticFirewall l,
   fun d x hx hxd y hyd hy => dropped_le_kept l d x hx hxd y hyd hy⟩

/-- A concrete scored chunk for tests: score `q`, docId `d`, id digit `n`. -/
def mkScored (q : ℚ) (d : Option Str) (n : ℕ) : ScoredChunk :=
  ⟨{ id := [Char.ofNat (48 + n)], content := [], embedding := none, timestamp := 0,
     tags := [], docId := d, source := none, contentHash := [], chunkIndex := n,
     chunkCount := 0, embeddingModel := [] }, q⟩

/-- Four chunks all stored under the *empty-string* docId. -/
def exEmptyDoc : List ScoredChunk :=
  [mkScored 4 (some []) 0, mkScored 3 (some []) 1, mkScored 2 (some []) 2,
   mkScored 1 (some []) 3]

/-- C2 counterexample: the claim caps every docId at 3 surviving chunks, but
chunks whose docId is the empty string are treated as orphans by the JS
truthiness test `if (chunk.content.docId)` and all pass through: 4 chunks
carrying docId `""` appear in the output. -/
theorem claim_C2_counterexample :
    3 < ((applySemanticFirewall exEmptyDoc).filter
        (fun c => c.content.docId = some ([] : Str))).length := by decide

/-- The spec example input: 5 chunks sharing docId `"docA"`, all scoring above
2 orphan chunks. -/
def exFiveTwo : List ScoredChunk :=
  [mkScored 10 (some ("docA".toList)) 0, mkScored 9 (some ("docA".toList)) 1,
   mkScored 8 (some ("docA".toList)) 2, mkScored 7 (some ("docA".toList)) 3,
   mkScored 6 (some ("docA".toList)) 4, mkScored 2 none 5, mkScored 1 none 6]

/-- Witness for C2: on the spec's 5-plus-2 example, at most 3 of the shared
docId's chunks survive and both orphans are preserved. -/
theorem claim_C2_applySemanticFirewall_spec_witness :
    ((applySemanticFirewall exFiveTwo).filter
        (fun c => c.content.docId = some ("docA".toList))).length ≤ 3
    ∧ (applySemanticFirewall exFiveTwo).count (mkScored 2 none 5) =
        exFiveTwo.count (mkScored 2 none 5)
    ∧ (applySemanticFirewall exFiveTwo).count (mkScored 1 none 6) =
        exFiveTwo.count (mkScored 1 none 6) :=
  ⟨(claim_C2_applySemanticFirewall_spec exFiveTwo).1 ("docA".toList) (by decide),
   (claim_C2_applySemanticFirewall_spec exFiveTwo).2.1 (mkScored 2 none 5) (by decide),
   (claim_C2_applySemanticFirewall_spec exFiveTwo).2.1 (mkScored 1 none 6) (by decide)⟩

/-! ### Loading without a query (`loadMemory`, rag-memory-service.ts lines
377–402)

    if (store.chunks.length === 0) {
      return { success: true, content: "Current memory is empty. ...", size: 0 };
    }
    if (!query) {
      const recentChunks = store.chunks
        .sort((a, b) => new Date(b.timestamp).getTime() - new Date(a.timestamp).getTime())
        .slice(0, Math.min(10, store.chunks.length));
      const totalContent = recentChunks.map(chunk => chunk.content).join('\n\n---\n\n');
      return { success: true,
               content: `Recent memory context (${recentChunks.length} chunks):\n\n${...}`,
               size: totalContent.length, relevantChunks: recentChunks };
    }

The `maxResults` parameter of `loadMemory` is in scope but not consulted on
this path. -/

/-- Descending-timestamp order used by the comparator
`(a, b) => new Date(b.timestamp).getTime() - new Date(a.timestamp).getTime()`. -/
def tsGE (a b : MemoryChunk) : Prop := b.timestamp ≤ a.timestamp

instance : DecidableRel tsGE := fun a b => inferInstanceAs (Decidable (b.timestamp ≤ a.timestamp))

instance : IsTotal MemoryChunk tsGE := ⟨fun a b => le_total b.timestamp a.timestamp⟩

instance : IsTrans MemoryChunk tsGE := ⟨fun _ _ _ h1 h2 => le_trans h2 h1⟩

def CHUNK_SEPARATOR : Str := "\n\n---\n\n".toList

/-- Model of `Array.prototype.join`. -/
def joinSep (sep : Str) (l : List Str) : Str := List.intercalate sep l

/-- Header of the no-query response. -/
def recentHeader (n : ℕ) : Str :=
  "Recent memory context (".toList ++ (Nat.repr n).toList ++ " chunks):\n\n".toList

/-- Model of the `loadMemory` branch taken when no query is supplied. -/
def loadMemoryNoQuery (store : List MemoryChunk) (maxResults : ℕ) : MemoryResult :=
  if store.isEmpty then
    { success := true,
      content := some ("Current memory is empty. No previous context available.".toList),
      size := some 0, error := none, relevantChunks := none, generatedResponse := none }
  else
    have _unusedOnThisPath := maxResults
    let recentChunks := (List.insertionSort tsGE store).take (min 10 store.length)
    let totalContent := joinSep CHUNK_SEPARATOR (recentChunks.map (fun c => c.content))
    { success := true,
      content := some (recentHeader recentChunks.length ++ totalContent),
      size := some totalContent.length, error := none,
      relevantChunks := some recentChunks, generatedResponse := none }

/-- A concrete chunk with timestamp `t` and id digit `n`. -/
def mkTsChunk (t : ℤ) (n : ℕ) : MemoryChunk :=
  { id := [Char.ofNat (48 + n)], content := [Char.ofNat (97 + n)], embedding := none,
    timestamp := t, tags := [], docId := none, source := none, contentHash := [],
    chunkIndex := n, chunkCount := 0, embeddingModel := [] }

def exStore3 : List MemoryChunk := [mkTsChunk 1 0, mkTsChunk 3 1, mkTsChunk 2 2]

/-- C4 counterexample: the claim caps the no-query result at
`min (2 * maxResults) (store size)`; with `maxResults = 1` and a 3-chunk store
that bound is 2, but the code returns `min 10 3 = 3` chunks — the cap is the
constant 10 and does not depend on `maxResults` at all. -/
theorem claim_C4_counterexample :
    ((loadMemoryNoQuery exStore3 1).relevantChunks.getD []).length = 3
    ∧ min (2 * 1) exStore3.length = 2 := by decide

/-- C4 (amended): on a non-empty store and no query, `loadMemory` succeeds and
returns the store's chunks sorted by timestamp descending, capped at
`min 10 (store size)` — a constant cap, independent of `maxResults` — as raw
joined context, with no synthesis (`generatedResponse = none`) and no error. -/
theorem claim_C4_loadMemory_noQuery (store : List MemoryChunk) (maxResults : ℕ)
    (h : store ≠ []) :
    (loadMemoryNoQuery store maxResults).success = true
    ∧ (loadMemoryNoQuery store maxResults).relevantChunks =
        some ((List.insertionSort tsGE store).take (min 10 store.length))
    ∧ List.Sorted tsGE ((loadMemoryNoQuery store maxResults).relevantChunks.getD [])
    ∧ ((loadMemoryNoQuery store maxResults).relevantChunks.getD []).length =
        min 10 store.length
    ∧ (loadMemoryNoQuery store maxResults).generatedResponse = none
    ∧ (loadMemoryNoQuery store maxResults).error = none
    ∧ (loadMemoryNoQuery store maxResults).content =
        some (recentHeader (min 10 store.length) ++
          joinSep CHUNK_SEPARATOR
            ((((List.insertionSort tsGE store).take (min 10 store.length)).map
              (fun c => c.content))))
    ∧ (∀ m : ℕ, loadMemoryNoQuery store m = loadMemoryNoQuery store maxResults) := by
  have hemp : ¬ store.isEmpty := by simpa [List.isEmpty_iff] using h
  have hsort : List.Sorted tsGE (List.insertionSort tsGE store) :=
    List.sorted_insertionSort tsGE store
  have hlen : ((List.insertionSort tsGE store).take (min 10 store.length)).length =
      min 10 store.length := by
    rw [List.length_take]
    have : (List.insertionSort tsGE store).length = store.length :=
      (List.perm_insertionSort tsGE store).length_eq
    omega
  refine ⟨?_, ?_, ?_, ?_, ?_, ?_, ?_, ?_⟩
  · simp [loadMemoryNoQuery, hemp]
  · simp [loadMemoryNoQuery, hemp]
  · simp only [loadMemoryNoQuery, hemp, Bool.false_eq_true, if_false, Option.getD_some]
    exact hsort.sublist (List.take_sublist _ _)
  · simp only [loadMemoryNoQuery, hemp, Bool.false_eq_true, if_false, Option.getD_some]
    exact hlen
  · simp [loadMemoryNoQuery, hemp]
  · simp [loadMemoryNoQuery, hemp]
  · simp only [loadMemoryNoQuery, hemp, Bool.false_eq_true, if_false]
    rw [hlen]
  · intro m
    simp [loadMemoryNoQuery]

/-- Witness for C4: the amended theorem at the concrete 3-chunk store. -/
theorem claim_C4_loadMemory_noQuery_witness :
    (loadMemoryNoQuery exStore3 5).success = true
    ∧ (loadMemoryNoQuery exStore3 5).relevantChunks =
        some ((List.insertionSort tsGE exStore3).take (min 10 exStore3.length)) :=
  ⟨(claim_C4_loadMemory_noQuery exStore3 5 (by decide)).1,
   (claim_C4_loadMemory_noQuery exStore3 5 (by decide)).2.1⟩

/-! ### Loading the store from disk (`loadMemoryStore`, memory-store.ts /
rag-memory-service.ts)

    try {
      const data = await fs.readFile(memoryPath, 'utf-8');
      const store = JSON.parse(data) as MemoryStore;
      if (!store.chunks || !Array.isArray(store.chunks)) {
        throw new Error("Invalid memory store format");
      }
      return store;
    } catch (error) {
      return { chunks: [], version: "1.0.0", lastUpdated: ..., totalChunks: 0 };
    }

The file system and `JSON.parse` are external; their combined outcome enters
the model as a `ReadOutcome`: a read failure, a parse failure, or a parsed
JSON value.  A parsed value that is not an object (so that `.chunks` is
`undefined` or the access throws) is covered by `Js.getField` returning
`none`. -/

/-- Parsed JSON values. -/
inductive Js where
  | null
  | bool (b : Bool)
  | num (q : ℚ)
  | str (s : Str)
  | arr (elems : List Js)
  | obj (fields : List (Str × Js))

/-- Field access on a parsed JSON value: `none` models `undefined` (missing
field, or the value is not an object). -/
def Js.getField : Js → Str → Option Js
  | .obj fields, k => (fields.find? (fun p => p.1 = k)).map Prod.snd
  | _, _ => none

/-- JS falsiness of a parsed JSON value. -/
def Js.falsy : Js → Bool
  | .null => true
  | .bool b => !b
  | .num q => q = 0
  | .str s => s.isEmpty
  | _ => false

/-- Model of `Array.isArray`. -/
def Js.isArray : Js → Bool
  | .arr _ => true
  | _ => false

/-- The validation `store.chunks && Array.isArray(store.chunks)`. -/
def validStore (j : Js) : Bool :=
  match j.getField ("chunks".toList) with
  | some v => !v.falsy && v.isArray
  | none => false

/-- Combined outcome of `fs.readFile` and `JSON.parse`. -/
inductive ReadOutcome where
  | readError
  | parseError
  | parsed (j : Js)

/-- The fresh empty store constructed by the catch handler. -/
def freshStoreJs (now : Str) : Js :=
  .obj [("chunks".toList, .arr []), ("version".toList, .str ("1.0.0".toList)),
        ("lastUpdated".toList, .str now), ("totalChunks".toList, .num 0)]

/-- Model of `loadMemoryStore`: a total function — every failure is absorbed
by the catch handler into a fresh empty store. -/
def loadMemoryStoreModel (now : Str) : ReadOutcome → Js
  | .readError => freshStoreJs now
  | .parseError => freshStoreJs now
  | .parsed j => if validStore j then j else freshStoreJs now

/-- C7: `loadMemoryStore` never propagates an error: on a missing/unreadable
file, on invalid JSON, or on JSON without a valid `chunks` array, it returns
the fresh empty store, whose `chunks` field is the empty array and whose
`totalChunks` field is `0`; on a valid store it returns the parsed value
unchanged.  Totality of `loadMemoryStoreModel` is the model of "never fails
outward". -/
theorem claim_C7_loadMemoryStore_neverFails (now : Str) (r : ReadOutcome) :
    ((r = .readError ∨ r = .parseError ∨ (∃ j, r = .parsed j ∧ validStore j = false)) →
      loadMemoryStoreModel now r = freshStoreJs now)
    ∧ (freshStoreJs now).getField ("chunks".toList) = some (.arr [])
    ∧ (freshStoreJs now).getField ("totalChunks".toList) = some (.num 0)
    ∧ (∀ j, validStore j = true → loadMemoryStoreModel now (.parsed j) = j) := by
  refine ⟨?_, rfl, rfl, ?_⟩
  · rintro (rfl | rfl | ⟨j, rfl, hbad⟩)
    · rfl
    · rfl
    · simp [loadMemoryStoreModel, hbad]
  · intro j hval
    simp [loadMemoryStoreModel, hval]

/-- Witness for C7: a read failure and a parsed-but-invalid value (`null`)
both produce the fresh empty store. -/
theorem claim_C7_loadMemoryStore_neverFails_witness :
    loadMemoryStoreModel [] .readError = freshStoreJs []
    ∧ loadMemoryStoreModel [] (.parsed .null) = freshStoreJs []
    ∧ loadMemoryStoreModel [] (.parsed (freshStoreJs [])) = freshStoreJs [] :=
  ⟨(claim_C7_loadMemoryStore_neverFails [] .readError).1 (Or.inl rfl),
   (claim_C7_loadMemoryStore_neverFails [] (.parsed .null)).1
     (Or.inr (Or.inr ⟨.null, rfl, rfl⟩)),
   (claim_C7_loadMemoryStore_neverFails [] (.parsed (freshStoreJs []))).2.2.2
     (freshStoreJs []) rfl⟩

/-! ### Text chunker (`splitIntoChunks`, chunker.ts / rag-memory-service.ts,
identical code; `CHUNK_SIZE = 800`, `CHUNK_OVERLAP = 120`)

Regular-expression semantics used by the source and their models:

* `text.split(/\n\s*\n/)`: repeated leftmost greedy matching.  A match at a
  position requires a `'\n'`, then greedily as much `\s` as possible ending in
  a final `'\n'`; since every character in the whitespace run is `\s`, the
  greedy match consumes up to the *last* `'\n'` inside the maximal whitespace
  run following the opening `'\n'` (`sepLen`).
* `/[.!?]\s+(.*)$/` without the `m`/`s` flags: `(.*)` cannot cross a newline
  and `$` is end-of-input, so the leftmost match anchors at the first
  punctuation character followed by at least one `\s` character such that the
  text after the maximal whitespace run contains no newline; the captured
  group is that newline-free tail (`sentCap`).
* `/\n(.*)$/`: the leftmost `'\n'` whose tail has no newline is the last
  newline; the capture is everything after it (`lineCap`).
* `split(/(?<=[.!?])\s+/)`: a split point is a maximal whitespace run whose
  preceding character is punctuation (`sentSplitF`, threading the previous
  character).

The recursions that consume a variable number of characters use explicit
fuel (`s.length + 1` suffices since each step consumes at least one
character); this keeps every definition structurally recursive and
kernel-reducible. -/

def CHUNK_SIZE : ℕ := 800
def CHUNK_OVERLAP : ℕ := 120

def isPunct (c : Char) : Bool := c = '.' || c = '!' || c = '?'

/-- Index of the last `'\n'` in a string, if any. -/
def lastNlIdx : Str → Option ℕ
  | [] => none
  | c :: cs =>
    match lastNlIdx cs with
    | some t => some (t + 1)
    | none => if c = '\n' then some 0 else none

/-- Length of the greedy `\n\s*\n` match starting exactly at the head of `s`,
if the regex matches there. -/
def sepLen : Str → Option ℕ
  | [] => none
  | c :: cs =>
    if c = '\n' then
      match lastNlIdx (cs.takeWhile isWS) with
      | some t => some (t + 2)
      | none => none
    else none

/-- Prepend a character to the first segment (building split results). -/
def consHead (segs : List Str) (c : Char) : List Str :=
  match segs with
  | [] => [[c]]
  | h :: t => (c :: h) :: t

/-- Fuelled scan realizing `text.split(/\n\s*\n/)`. -/
def splitOnBlankF : ℕ → Str → List Str
  | 0, _ => []
  | _ + 1, [] => [[]]
  | f + 1, c :: cs =>
    match sepLen (c :: cs) with
    | some m => [] :: splitOnBlankF f ((c :: cs).drop m)
    | none => consHead (splitOnBlankF f cs) c

/-- Model of `text.split(/\n\s*\n/)`. -/
def splitOnBlank (s : Str) : List Str := splitOnBlankF (s.length + 1) s

/-- Capture group of the leftmost `/[.!?]\s+(.*)$/` match, if any. -/
def sentCap : Str → Option Str
  | [] => none
  | c :: cs =>
    if isPunct c then
      (let w := cs.takeWhile isWS
       let tail := cs.drop w.length
       if 1 ≤ w.length ∧ tail.all (fun x => x ≠ '\n') then some tail else sentCap cs)
    else sentCap cs

/-- Capture group of the leftmost `/\n(.*)$/` match: the text after the last
newline, if any newline exists. -/
def lineCap (s : Str) : Option Str :=
  if s.contains '\n' then some ((s.reverse.takeWhile (fun c => c ≠ '\n')).reverse)
  else none

/-- The word-boundary fallback of `getOverlapText`: last 15 space-separated
words of the overlap candidate. -/
def wordOverlap (oc : Str) : Str :=
  let words := oc.splitOn ' '
  List.intercalate [' '] (words.drop (words.length - 15))

/-- Line-break attempt of `getOverlapText`, falling back to words. -/
def lineOr (oc : Str) : Str :=
  match lineCap oc with
  | some cap => if 20 < cap.length then cap else wordOverlap oc
  | none => wordOverlap oc

/-- Model of `getOverlapText`. -/
def getOverlapText (chunk : Str) : Str :=
  if chunk.length ≤ CHUNK_OVERLAP then chunk
  else
    let oc := chunk.drop (chunk.length - CHUNK_OVERLAP)
    match sentCap oc with
    | some cap => if 20 < cap.length then cap else lineOr oc
    | none => lineOr oc

/-- Fuelled scan realizing `paragraph.split(/(?<=[.!?])\s+/)`; `prev` is the
character preceding the current position (the lookbehind). -/
def sentSplitF : ℕ → Char → Str → List Str
  | 0, _, _ => []
  | _ + 1, _, [] => [[]]
  | f + 1, prev, c :: cs =>
    if isWS c ∧ isPunct prev then
      [] :: sentSplitF f ' ' ((c :: cs).drop ((c :: cs).takeWhile isWS).length)
    else consHead (sentSplitF f c cs) c

/-- Model of `paragraph.split(/(?<=[.!?])\s+/)`; at the start of the input
there is no preceding character, modelled by the non-punctuation `'a'`. -/
def sentSplit (p : Str) : List Str := sentSplitF (p.length + 1) 'a' p

/-- One step of the sentence-accumulation loop of `splitLargeParagraph`. -/
def sentStep (st : List Str × Str) (s : Str) : List Str × Str :=
  let chunks := st.1
  let cur := st.2
  if CHUNK_SIZE < cur.length + s.length + 1 ∧ 0 < cur.length then
    (chunks ++ [trimL cur],
     (let ov := getOverlapText cur
      ov ++ (if ov.isEmpty then [] else [' ']) ++ s))
  else (chunks, cur ++ (if cur.isEmpty then [] else [' ']) ++ s)

/-- Model of `splitLargeParagraph`. -/
def splitLargeParagraph (paragraph : Str) : List Str :=
  let sentences := (sentSplit paragraph).filter (fun s => 0 < (trimL s).length)
  let st := sentences.foldl sentStep ([], [])
  if 0 < (trimL st.2).length then st.1 ++ [trimL st.2] else st.1

/-- One step of the paragraph-accumulation loop of `splitIntoChunks`. -/
def chunkStep (st : List Str × Str) (paragraph : Str) : List Str × Str :=
  let chunks := st.1
  let cur := st.2
  let pt := trimL paragraph
  let st1 :=
    if CHUNK_SIZE < cur.length + pt.length + 2 ∧ 0 < cur.length then
      (chunks ++ [trimL cur],
       (let ov := getOverlapText cur
        ov ++ (if ov.isEmpty then [] else ("\n\n".toList)) ++ pt))
    else (chunks, cur ++ (if cur.isEmpty then [] else ("\n\n".toList)) ++ pt)
  if CHUNK_SIZE < st1.2.length then
    let sp := splitLargeParagraph st1.2
    (st1.1 ++ sp.dropLast, sp.getLast?.getD [])
  else st1

/-- The character-count fallback split (no usable paragraphs found). -/
def charSplit (text : Str) : List Str :=
  (List.range ((text.length + (CHUNK_SIZE - CHUNK_OVERLAP - 1)) / (CHUNK_SIZE - CHUNK_OVERLAP))).map
    (fun j => (text.drop ((CHUNK_SIZE - CHUNK_OVERLAP) * j)).take CHUNK_SIZE)

/-- Model of `splitIntoChunks`. -/
def splitIntoChunks (text : Str) : List Str :=
  let paragraphs := (splitOnBlank text).filter (fun p => 0 < (trimL p).length)
  let st := paragraphs.foldl chunkStep ([], [])
  let chunks2 := if 0 < (trimL st.2).length then st.1 ++ [trimL st.2] else st.1
  let chunks3 := if chunks2.isEmpty ∧ 0 < text.length then charSplit text else chunks2
  chunks3.filter (fun c => 0 < (trimL c).length)

theorem lastNlIdx_lt {w : Str} {t : ℕ} (h : lastNlIdx w = some t) : t < w.length := by
  induction w generalizing t with
  | nil => cases h
  | cons c cs ih =>
    rw [lastNlIdx] at h
    cases hcs : lastNlIdx cs with
    | some u =>
      rw [hcs] at h
      cases h
      have := ih hcs
      simp only [List.length_cons]
      omega
    | none =>
      rw [hcs] at h
      by_cases hc : c = '\n'
      · rw [if_pos hc] at h
        cases h
        simp
      · rw [if_neg hc] at h
        cases h

theorem sepLen_ge_two {s : Str} {m : ℕ} (h : sepLen s = some m) : 2 ≤ m := by
  cases s with
  | nil => cases h
  | cons c cs =>
    rw [sepLen] at h
    by_cases hc : c = '\n'
    · rw [if_pos hc] at h
      cases htw : lastNlIdx (cs.takeWhile isWS) with
      | some t =>
        rw [htw] at h
        cases h
        omega
      | none =>
        rw [htw] at h
        cases h
    · rw [if_neg hc] at h
      cases h

theorem sepLen_le {s : Str} {m : ℕ} (h : sepLen s = some m) : m ≤ s.length := by
  cases s with
  | nil => cases h
  | cons c cs =>
    rw [sepLen] at h
    by_cases hc : c = '\n'
    · rw [if_pos hc] at h
      cases htw : lastNlIdx (cs.takeWhile isWS) with
      | some t =>
        rw [htw] at h
        cases h
        have h1 := lastNlIdx_lt htw
        have h2 : (cs.takeWhile isWS).length ≤ cs.length :=
          (List.takeWhile_prefix isWS).sublist.length_le
        simp only [List.length_cons]
        omega
      | none =>
        rw [htw] at h
        cases h
    · rw [if_neg hc] at h
      cases h

theorem sepLen_ws {s : Str} {m : ℕ} (h : sepLen s = some m) :
    ∀ c ∈ s.take m, isWS c := by
  cases s with
  | nil => cases h
  | cons c cs =>
    rw [sepLen] at h
    by_cases hc : c = '\n'
    · rw [if_pos hc] at h
      cases htw : lastNlIdx (cs.takeWhile isWS) with
      | some t =>
        rw [htw] at h
        cases h
        intro x hx
        rw [show t + 2 = t + 1 + 1 from rfl, List.take_succ_cons] at hx
        rcases List.mem_cons.mp hx with rfl | hx2
        · simp [hc, isWS]
        · have h1 : t < (cs.takeWhile isWS).length := lastNlIdx_lt htw
          have hpre : cs.takeWhile isWS ++ cs.dropWhile isWS = cs :=
            List.takeWhile_append_dropWhile ..
          have htake : cs.take (t + 1) = (cs.takeWhile isWS).take (t + 1) := by
            conv_lhs => rw [← hpre]
            exact List.take_append_of_le_length (by omega)
          rw [htake] at hx2
          exact List.mem_takeWhile_imp (List.mem_of_mem_take hx2)
      | none =>
        rw [htw] at h
        cases h
    · rw [if_neg hc] at h
      cases h

theorem splitOnBlankF_ne_nil : ∀ (fuel : ℕ) (s : Str), s.length < fuel →
    splitOnBlankF fuel s ≠ [] := by
  intro fuel
  induction fuel with
  | zero =>
    intro s h
    omega
  | succ f ih =>
    intro s h
    cases s with
    | nil => simp [splitOnBlankF]
    | cons c cs =>
      rw [splitOnBlankF]
      cases hsep : sepLen (c :: cs) with
      | some m => simp
      | none =>
        simp only
        unfold consHead
        cases splitOnBlankF f cs <;> simp

/-- Weight of a split result: total segment length plus 2 per segment. -/
def W (l : List Str) : ℕ := (l.map List.length).sum + 2 * l.length

theorem W_consHead (l : List Str) (c : Char) : W (consHead l c) ≤ W l + 3 := by
  cases l with
  | nil => simp [consHead, W]
  | cons h t => simp [consHead, W]; omega

theorem W_consHead_ne_nil (l : List Str) (c : Char) (h : l ≠ []) :
    W (consHead l c) = W l + 1 := by
  cases l with
  | nil => exact absurd rfl h
  | cons hd t => simp [consHead, W]; omega

/-- Key budget bound: the segments of a split, with 2 characters charged per
boundary (each separator consumes at least 2 characters), weigh no more than
the input plus 2. -/
theorem splitOnBlankF_W : ∀ (fuel : ℕ) (s : Str), s.length < fuel →
    W (splitOnBlankF fuel s) ≤ s.length + 2 := by
  intro fuel
  induction fuel with
  | zero =>
    intro s h
    omega
  | succ f ih =>
    intro s h
    cases s with
    | nil => simp [splitOnBlankF, W]
    | cons c cs =>
      rw [splitOnBlankF]
      cases hsep : sepLen (c :: cs) with
      | some m =>
        simp only
        have hm2 : 2 ≤ m := sepLen_ge_two hsep
        have hml : m ≤ (c :: cs).length := sepLen_le hsep
        have hlen : ((c :: cs).drop m).length = (c :: cs).length - m := List.length_drop ..
        have hrec := ih ((c :: cs).drop m) (by simp only [hlen]; simp at h ⊢; omega)
        have hW : W ([] :: splitOnBlankF f ((c :: cs).drop m)) =
            W (splitOnBlankF f ((c :: cs).drop m)) + 2 := by
          simp [W]
          omega
        rw [hW]
        rw [hlen] at hrec
        simp only [List.length_cons] at h hml hrec ⊢
        omega
      | none =>
        simp only
        have hrec := ih cs (by simp at h; omega)
        have hne := splitOnBlankF_ne_nil f cs (by simp at h; omega)
        rw [W_consHead_ne_nil _ _ hne]
        simp only [List.length_cons]
        omega

/-- Every character of every segment is a character of the input. -/
theorem splitOnBlankF_sub : ∀ (fuel : ℕ) (s : Str), s.length < fuel →
    ∀ seg ∈ splitOnBlankF fuel s, ∀ c ∈ seg, c ∈ s := by
  intro fuel
  induction fuel with
  | zero =>
    intro s h
    omega
  | succ f ih =>
    intro s h
    cases s with
    | nil =>
      intro seg hseg c hc
      simp [splitOnBlankF] at hseg
      subst hseg
      cases hc
    | cons a cs =>
      rw [splitOnBlankF]
      cases hsep : sepLen (a :: cs) with
      | some m =>
        simp only
        intro seg hseg c hc
        rcases List.mem_cons.mp hseg with rfl | hseg2
        · cases hc
        · have hml : m ≤ (a :: cs).length := sepLen_le hsep
          have hm2 : 2 ≤ m := sepLen_ge_two hsep
          have := ih ((a :: cs).drop m)
            (by rw [List.length_drop]; simp only [List.length_cons] at h ⊢; omega)
            seg hseg2 c hc
          exact (List.drop_subset m (a :: cs)) this
      | none =>
        simp only
        intro seg hseg c hc
        unfold consHead at hseg
        cases hrec : splitOnBlankF f cs with
        | nil =>
          rw [hrec] at hseg
          simp at hseg
          subst hseg
          rcases List.mem_singleton.mp hc with rfl
          exact List.mem_cons_self _ _
        | cons hd t =>
          rw [hrec] at hseg
          rcases List.mem_cons.mp hseg with rfl | hseg2
          · rcases List.mem_cons.mp hc with rfl | hc2
            · exact List.mem_cons_self _ _
            · exact List.mem_cons_of_mem _
                (ih cs (by simp at h; omega) hd (by rw [hrec]; exact List.mem_cons_self _ _) c hc2)
          · exact List.mem_cons_of_mem _
              (ih cs (by simp at h; omega) seg (by rw [hrec]; exact List.mem_cons_of_mem _ hseg2) c hc)

/-- If every segment is all-whitespace, the input is all-whitespace. -/
theorem splitOnBlankF_all_ws : ∀ (fuel : ℕ) (s : Str), s.length < fuel →
    (∀ seg ∈ splitOnBlankF fuel s, ∀ c ∈ seg, isWS c) → ∀ c ∈ s, isWS c := by
  intro fuel
  induction fuel with
  | zero =>
    intro s h
    omega
  | succ f ih =>
    intro s h
    cases s with
    | nil =>
      intro _ c hc
      cases hc
    | cons a cs =>
      rw [splitOnBlankF]
      cases hsep : sepLen (a :: cs) with
      | some m =>
        simp only
        intro hall c hc
        have hml : m ≤ (a :: cs).length := sepLen_le hsep
        have hm2 : 2 ≤ m := sepLen_ge_two hsep
        have hrest := ih ((a :: cs).drop m)
          (by rw [List.length_drop]; simp only [List.length_cons] at h ⊢; omega)
          (fun seg hseg => hall seg (List.mem_cons_of_mem _ hseg))
        have hsplit : (a :: cs).take m ++ (a :: cs).drop m = a :: cs := List.take_append_drop ..
        rw [← hsplit] at hc
        rcases List.mem_append.mp hc with hc1 | hc2
        · exact sepLen_ws hsep c hc1
        · exact hrest c hc2
      | none =>
        simp only
        intro hall c hc
        cases hrec : splitOnBlankF f cs with
        | nil => exact absurd hrec (splitOnBlankF_ne_nil f cs (by simp at h; omega))
        | cons hd t =>
          have hall2 : ∀ seg ∈ splitOnBlankF f cs, ∀ x ∈ seg, isWS x := by
            intro seg hseg x hx
            rw [hrec] at hseg
            rcases List.mem_cons.mp hseg with rfl | hseg2
            · refine hall (a :: seg) ?_ x (List.mem_cons_of_mem _ hx)
              rw [hrec]
              unfold consHead
              exact List.mem_cons_self _ _
            · refine hall seg ?_ x hx
              rw [hrec]
              unfold consHead
              exact List.mem_cons_of_mem _ hseg2
          rcases List.mem_cons.mp hc with rfl | hc2
          · refine hall (c :: hd) ?_ c (List.mem_cons_self _ _)
            rw [hrec]
            unfold consHead
            exact List.mem_cons_self _ _
          · exact ih cs (by simp at h; omega) hall2 c hc2

/-- The head of a non-empty `dropWhile` result fails the predicate. -/
theorem dropWhile_head_false {p : Char → Bool} {l : List Char} {b : Char} {t : List Char}
    (h : l.dropWhile p = b :: t) : ¬ p b := by
  have h1 := List.head_dropWhile_not p l (by simp [h])
  have h2 : (l.dropWhile p).head (by simp [h]) = b := by simp [h]
  rw [h2] at h1
  simp [h1]

/-- The first character of a trimmed string is not whitespace. -/
theorem trimL_head_not_ws {s : Str} {c : Char} {t : Str} (h : trimL s = c :: t) :
    ¬ isWS c := by
  have hh : (trimL s).head? = some c := by rw [h]; rfl
  unfold trimL at hh
  rw [List.head?_reverse] at hh
  -- hh : (dropWhile isWS (reverse (dropWhile isWS s))).getLast? = some c
  cases hB : List.dropWhile isWS (s.dropWhile isWS).reverse with
  | nil =>
    rw [hB] at hh
    cases hh
  | cons b u =>
    rw [hB] at hh
    obtain ⟨v, hv⟩ := (List.dropWhile_suffix (l := (s.dropWhile isWS).reverse) isWS)
    rw [hB] at hv
    have hlast : (s.dropWhile isWS).reverse.getLast? = some c := by
      rw [← hv, List.getLast?_append_of_ne_nil v (by simp)]
      exact hh
    rw [List.getLast?_reverse] at hlast
    cases hA : s.dropWhile isWS with
    | nil =>
      rw [hA] at hlast
      cases hlast
    | cons a w =>
      rw [hA] at hlast
      simp only [List.head?_cons, Option.some.injEq] at hlast
      subst hlast
      exact dropWhile_head_false hA

/-- The last character of a trimmed string is not whitespace. -/
theorem trimL_last_not_ws {s : Str} {d : Char} (h : (trimL s).getLast? = some d) :
    ¬ isWS d := by
  unfold trimL at h
  rw [List.getLast?_reverse] at h
  cases hB : List.dropWhile isWS (s.dropWhile isWS).reverse with
  | nil =>
    rw [hB] at h
    cases h
  | cons b u =>
    rw [hB] at h
    simp only [List.head?_cons, Option.some.injEq] at h
    subst h
    exact dropWhile_head_false hB

/-- A string whose first and last characters are non-whitespace is unchanged
by trimming. -/
theorem trimL_eq_self {s : Str} {c d : Char} {t : Str} (hs : s = c :: t)
    (hc : ¬ isWS c) (hlast : s.getLast? = some d) (hd : ¬ isWS d) : trimL s = s := by
  have hA : s.dropWhile isWS = s := by
    rw [hs, List.dropWhile_cons]
    simp [hc]
  have hrev : s.reverse.head? = some d := by rw [List.head?_reverse]; exact hlast
  have hB : s.reverse.dropWhile isWS = s.reverse := by
    cases hr : s.reverse with
    | nil => rfl
    | cons r u =>
      rw [hr] at hrev
      simp only [List.head?_cons, Option.some.injEq] at hrev
      subst hrev
      rw [List.dropWhile_cons]
      simp [hd]
  unfold trimL
  rw [hA, hB, List.reverse_reverse]

/-- Trimmed size of a paragraph list, charging 2 separator characters per
paragraph. -/
def TS (ps : List Str) : ℕ := (ps.map (fun p => (trimL p).length + 2)).sum

theorem TS_le_W (ps : List Str) : TS ps ≤ W ps := by
  induction ps with
  | nil => simp [TS, W]
  | cons p t ih =>
    have := trimL_length_le p
    simp only [TS, W, List.map_cons, List.sum_cons, List.length_cons] at ih ⊢
    omega

theorem W_filter_le (p : Str → Bool) (l : List Str) : W (l.filter p) ≤ W l := by
  induction l with
  | nil => exact le_refl _
  | cons a t ih =>
    rw [List.filter_cons]
    by_cases hpa : p a
    · simp only [hpa, if_true]
      simp only [W, List.map_cons, List.sum_cons, List.length_cons] at ih ⊢
      omega
    · simp only [hpa, Bool.false_eq_true, if_false]
      refine le_trans ih ?_
      simp only [W, List.map_cons, List.sum_cons, List.length_cons]
      omega

/-- Paragraph accumulation as performed by the non-splitting branch of the
chunk loop: append `"\n\n"` and the trimmed paragraph, for each paragraph. -/
def joinFrom (cur : Str) (ps : List Str) : Str :=
  ps.foldl (fun acc q => acc ++ ("\n\n".toList) ++ trimL q) cur

/-- The single chunk produced from a short input: its paragraphs trimmed and
joined by blank lines. -/
def normJoin (paras : List Str) : Str :=
  match paras with
  | [] => []
  | p :: ps => joinFrom (trimL p) ps

theorem joinFrom_cons (cur : Str) (p : Str) (t : List Str) :
    joinFrom cur (p :: t) = joinFrom (cur ++ ("\n\n".toList) ++ trimL p) t := rfl

theorem joinFrom_length (ps : List Str) :
    ∀ cur, (joinFrom cur ps).length = cur.length + TS ps := by
  induction ps with
  | nil => simp [joinFrom, TS]
  | cons p t ih =>
    intro cur
    rw [joinFrom_cons, ih]
    simp only [TS, List.map_cons, List.sum_cons, List.length_append]
    have : ("\n\n".toList).length = 2 := rfl
    omega

theorem joinFrom_ne_nil (ps : List Str) : ∀ cur, cur ≠ [] → joinFrom cur ps ≠ [] := by
  induction ps with
  | nil => exact fun cur h => h
  | cons p t ih =>
    intro cur hcur
    rw [joinFrom_cons]
    exact ih _ (by simp [hcur])

theorem joinFrom_head? (ps : List Str) :
    ∀ cur, cur ≠ [] → (joinFrom cur ps).head? = cur.head? := by
  induction ps with
  | nil => intro cur _; rfl
  | cons p t ih =>
    intro cur hcur
    rw [joinFrom_cons, ih _ (by simp [hcur])]
    cases cur with
    | nil => exact absurd rfl hcur
    | cons c u => simp

theorem joinFrom_last_not_ws (ps : List Str) :
    ∀ cur, (∀ p ∈ ps, trimL p ≠ []) → (∀ d, cur.getLast? = some d → ¬ isWS d) →
      ∀ d, (joinFrom cur ps).getLast? = some d → ¬ isWS d := by
  induction ps with
  | nil => exact fun cur _ h => h
  | cons p t ih =>
    intro cur hps hcur
    rw [joinFrom_cons]
    have hp : trimL p ≠ [] := hps p (List.mem_cons_self _ _)
    refine ih _ (fun q hq => hps q (List.mem_cons_of_mem _ hq)) ?_
    intro d hd
    rw [show cur ++ ("\n\n".toList) ++ trimL p = (cur ++ ("\n\n".toList)) ++ trimL p by
          simp, List.getLast?_append_of_ne_nil _ hp] at hd
    exact trimL_last_not_ws hd

/-- One non-splitting step of the chunk loop, under the short-input budget. -/
theorem chunkStep_short (cur : Str) (p : Str) (hne : cur ≠ [])
    (hbud : cur.length + (trimL p).length + 2 ≤ CHUNK_SIZE) :
    chunkStep ([], cur) p = ([], cur ++ ("\n\n".toList) ++ trimL p) := by
  have hc1 : ¬ (CHUNK_SIZE < cur.length + (trimL p).length + 2 ∧ 0 < cur.length) := by
    rintro ⟨h1, _⟩
    omega
  have hcur : cur.isEmpty = false := by
    cases cur with
    | nil => exact absurd rfl hne
    | cons a t => rfl
  have hlen2 : ¬ CHUNK_SIZE < (cur ++ ("\n\n".toList) ++ trimL p).length := by
    simp only [List.length_append]
    have : ("\n\n".toList).length = 2 := rfl
    omega
  unfold chunkStep
  simp only [hcur, Bool.false_eq_true, if_false, if_neg hc1, if_neg hlen2]

/-- First step of the chunk loop from the empty accumulator. -/
theorem chunkStep_first (p : Str) (hbud : (trimL p).length ≤ CHUNK_SIZE) :
    chunkStep ([], []) p = ([], trimL p) := by
  have hc1 : ¬ (CHUNK_SIZE < ([] : Str).length + (trimL p).length + 2 ∧ 0 < ([] : Str).length) := by
    rintro ⟨_, h2⟩
    simp at h2
  have hlen2 : ¬ CHUNK_SIZE < (([] : Str) ++ ([] : Str) ++ trimL p).length := by
    simp only [List.nil_append, List.length_nil]
    omega
  unfold chunkStep
  simp only [if_neg hc1, List.isEmpty_nil, if_true, List.nil_append]
  rw [if_neg (by simpa using hlen2)]

/-- The chunk loop never closes a chunk while the running budget fits in one
chunk: it just accumulates the join. -/
theorem chunk_loop : ∀ (ps : List Str) (cur : Str), cur ≠ [] →
    cur.length + TS ps ≤ CHUNK_SIZE →
    ps.foldl chunkStep ([], cur) = ([], joinFrom cur ps) := by
  intro ps
  induction ps with
  | nil => intro cur _ _; rfl
  | cons p t ih =>
    intro cur hne hbud
    have hTS : TS (p :: t) = (trimL p).length + 2 + TS t := by
      simp only [TS, List.map_cons, List.sum_cons]
    rw [List.foldl_cons, chunkStep_short cur p hne (by omega), joinFrom_cons]
    refine ih _ (by simp [hne]) ?_
    simp only [List.length_append]
    have : ("\n\n".toList).length = 2 := rfl
    omega

theorem splitIntoChunks_nil : splitIntoChunks [] = [] := rfl

theorem splitIntoChunks_all_ws (t : Str) (h : ∀ c ∈ t, isWS c) :
    splitIntoChunks t = [] := by
  have hfuel : t.length < t.length + 1 := Nat.lt_succ_self _
  have hparas : (splitOnBlank t).filter (fun p => 0 < (trimL p).length) = [] := by
    rw [List.filter_eq_nil_iff]
    intro seg hseg
    have hseg0 : trimL seg = [] := trimL_eq_nil_of_all_ws seg
      (fun x hx => h x (splitOnBlankF_sub _ t hfuel seg hseg x hx))
    simp [hseg0]
  simp only [splitIntoChunks, hparas, List.foldl_nil, trimL_nil, List.length_nil,
    lt_irrefl, if_false, List.isEmpty_nil, true_and]
  by_cases ht : 0 < t.length
  · rw [if_pos ht, List.filter_eq_nil_iff]
    intro ch hch
    unfold charSplit at hch
    obtain ⟨j, _, rfl⟩ := List.mem_map.mp hch
    have hchar : trimL ((t.drop ((CHUNK_SIZE - CHUNK_OVERLAP) * j)).take CHUNK_SIZE) = [] :=
      trimL_eq_nil_of_all_ws _
        (fun x hx => h x (List.drop_subset _ t (List.mem_of_mem_take hx)))
    simp [hchar]
  · rw [if_neg ht]
    rfl

/-- A short input with some non-whitespace character yields exactly one chunk:
its (trim-surviving) paragraphs, each trimmed, joined by blank lines. -/
theorem splitIntoChunks_short (t : Str) (hlen : t.length < CHUNK_SIZE)
    (hnb : ∃ c ∈ t, ¬ isWS c) :
    splitIntoChunks t =
      [normJoin ((splitOnBlank t).filter (fun p => 0 < (trimL p).length))] := by
  have hCS : CHUNK_SIZE = 800 := rfl
  obtain ⟨c, hct, hcw⟩ := hnb
  have hfuel : t.length < t.length + 1 := Nat.lt_succ_self _
  have hnonempty : (splitOnBlank t).filter (fun p => 0 < (trimL p).length) ≠ [] := by
    intro hnil
    have hall : ∀ seg ∈ splitOnBlank t, ∀ x ∈ seg, isWS x := by
      intro seg hseg x hx
      by_contra hxw
      have hpos : 0 < (trimL seg).length :=
        List.length_pos.mpr (trimL_ne_nil_of_not_ws hx hxw)
      have hmem : seg ∈ (splitOnBlank t).filter (fun p => 0 < (trimL p).length) :=
        List.mem_filter.mpr ⟨hseg, by simpa using hpos⟩
      rw [hnil] at hmem
      cases hmem
    exact hcw (splitOnBlankF_all_ws _ t hfuel hall c hct)
  obtain ⟨p0, rest, hcons⟩ := List.exists_cons_of_ne_nil hnonempty
  have hW : W (splitOnBlank t) ≤ t.length + 2 := splitOnBlankF_W _ t hfuel
  have hWp : W ((splitOnBlank t).filter (fun p => 0 < (trimL p).length)) ≤
      W (splitOnBlank t) := W_filter_le _ _
  have hTS : TS ((splitOnBlank t).filter (fun p => 0 < (trimL p).length)) ≤
      W ((splitOnBlank t).filter (fun p => 0 < (trimL p).length)) := TS_le_W _
  have htrims : ∀ p ∈ (splitOnBlank t).filter (fun p => 0 < (trimL p).length),
      0 < (trimL p).length := fun p hp => by simpa using (List.mem_filter.mp hp).2
  have hp0 : 0 < (trimL p0).length := htrims p0 (by rw [hcons]; exact List.mem_cons_self _ _)
  have hp0ne : trimL p0 ≠ [] := by
    intro h0
    rw [h0] at hp0
    cases hp0
  have hTScons : TS ((splitOnBlank t).filter (fun p => 0 < (trimL p).length)) =
      (trimL p0).length + 2 + TS rest := by
    rw [hcons]
    simp only [TS, List.map_cons, List.sum_cons]
  have hfold : ((splitOnBlank t).filter (fun p => 0 < (trimL p).length)).foldl
      chunkStep ([], []) = ([], joinFrom (trimL p0) rest) := by
    rw [hcons, List.foldl_cons, chunkStep_first p0 (by omega)]
    exact chunk_loop rest (trimL p0) hp0ne (by omega)
  have hJne : joinFrom (trimL p0) rest ≠ [] := joinFrom_ne_nil rest _ hp0ne
  obtain ⟨c0, t0, hp0c⟩ := List.exists_cons_of_ne_nil hp0ne
  have hc0 : ¬ isWS c0 := trimL_head_not_ws hp0c
  have hJhead : (joinFrom (trimL p0) rest).head? = some c0 := by
    rw [joinFrom_head? rest _ hp0ne, hp0c]
    rfl
  obtain ⟨u, hJu⟩ : ∃ u, joinFrom (trimL p0) rest = c0 :: u := by
    cases hJ : joinFrom (trimL p0) rest with
    | nil => exact absurd hJ hJne
    | cons j v =>
      rw [hJ] at hJhead
      simp only [List.head?_cons, Option.some.injEq] at hJhead
      subst hJhead
      exact ⟨v, rfl⟩
  obtain ⟨d, hdlast⟩ : ∃ d, (joinFrom (trimL p0) rest).getLast? = some d :=
    ⟨_, List.getLast?_eq_getLast _ hJne⟩
  have hdw : ¬ isWS d := joinFrom_last_not_ws rest (trimL p0)
    (fun q hq => by
      intro h0
      have := htrims q (by rw [hcons]; exact List.mem_cons_of_mem _ hq)
      rw [h0] at this
      cases this)
    (fun e he => trimL_last_not_ws he) d hdlast
  have hJtrim : trimL (joinFrom (trimL p0) rest) = joinFrom (trimL p0) rest :=
    trimL_eq_self hJu hc0 hdlast hdw
  have hJpos : 0 < (trimL (joinFrom (trimL p0) rest)).length := by
    rw [hJtrim, hJu]
    simp
  simp only [splitIntoChunks, hfold, hJpos, if_true, List.nil_append]
  have hne2 : ([trimL (joinFrom (trimL p0) rest)]).isEmpty = false := rfl
  simp only [hne2, Bool.false_eq_true, false_and, if_false, hJtrim]
  rw [List.filter_eq_self.mpr (by
    intro a ha
    rcases List.mem_singleton.mp ha with rfl
    simpa using hJpos)]
  rw [hcons]
  rfl

/-- Every chunk `splitIntoChunks` returns is non-empty after trimming. -/
theorem splitIntoChunks_trim_pos (t : Str) (c : Str) (h : c ∈ splitIntoChunks t) :
    0 < (trimL c).length := by
  simp only [splitIntoChunks] at h
  simpa using (List.mem_filter.mp h).2

/-- C5 (amended): `splitIntoChunks` maps empty input to the empty sequence,
maps every whitespace-only input to the empty sequence, maps every input
shorter than `chunkSize` that contains a non-whitespace character to exactly
one chunk — the input's (blank-line-separated, trim-surviving) paragraphs,
each trimmed, joined by `"\n\n"` (equal to the trimmed input only when no
interior blank-line normalization occurs) — and every chunk of every output is
non-empty after trimming. -/
theorem claim_C5_splitIntoChunks_edge :
    splitIntoChunks [] = []
    ∧ (∀ t : Str, (∀ c ∈ t, isWS c) → splitIntoChunks t = [])
    ∧ (∀ t : Str, t.length < CHUNK_SIZE → (∃ c ∈ t, ¬ isWS c) →
        splitIntoChunks t =
          [normJoin ((splitOnBlank t).filter (fun p => 0 < (trimL p).length))])
    ∧ (∀ t c : Str, c ∈ splitIntoChunks t → 0 < (trimL c).length) :=
  ⟨splitIntoChunks_nil, splitIntoChunks_all_ws, splitIntoChunks_short,
   splitIntoChunks_trim_pos⟩

/-- C5 counterexample: the claim promises, for non-empty input shorter than
`chunkSize`, exactly one chunk equal to the input with only surrounding
whitespace trimmed.  The input `" a \n \n b "` is short and non-empty, but the
single chunk produced is the normalized `"a\n\nb"`, not the trimmed input
`"a \n \n b"`; and the non-empty all-whitespace input `" "` produces no chunk
at all. -/
theorem claim_C5_counterexample :
    splitIntoChunks (" a \n \n b ".toList) = ["a\n\nb".toList]
    ∧ "a\n\nb".toList ≠ trimL (" a \n \n b ".toList)
    ∧ (" a \n \n b ".toList).length < CHUNK_SIZE
    ∧ " a \n \n b ".toList ≠ []
    ∧ splitIntoChunks ([' '] : Str) = []
    ∧ ([' '] : Str) ≠ []
    ∧ ([' '] : Str).length < CHUNK_SIZE := by decide

/-- Witness for C5: the short-input conjuncts applied at concrete inputs. -/
theorem claim_C5_splitIntoChunks_edge_witness :
    splitIntoChunks ("hello".toList) =
      [normJoin ((splitOnBlank ("hello".toList)).filter (fun p => 0 < (trimL p).length))]
    ∧ splitIntoChunks ([' '] : Str) = [] :=
  ⟨claim_C5_splitIntoChunks_edge.2.2.1 ("hello".toList) (by decide) (by decide),
   claim_C5_splitIntoChunks_edge.2.1 [' '] (by decide)⟩

/-! ### Saving (`saveMemory`, rag-memory-service.ts lines 211–310)

External collaborators enter the model as parameters: the on-disk store that
`loadMemoryStore` reads (`disk`), the outcome of the single batched
`aiService.generateEmbeddings` call (`embedsOutcome`), the wall clock (`now`)
and the `AI_EMBEDDING_MODEL` environment value (`em`).  `randomUUID` is
modelled by a deterministic id derived from the chunk index; no modelled
property inspects id values.  The function returns the `MemoryResult` and the
new on-disk store, which equals the input `disk` whenever `saveMemoryStore`
is not reached. -/

/-- The chunk record constructed for a surviving candidate (saveMemory lines
269–282); `metadata` is omitted as an untyped record nothing inspects. -/
def mkSaveChunk (tags : List Str) (docId source : Option Str) (now : ℤ) (em : Str)
    (total : ℕ) (chunk : Str) (embedding : Option (List ℚ)) (index : ℕ) : MemoryChunk :=
  { id := (Nat.repr index).toList, content := chunk, embedding := embedding,
    timestamp := now, tags := tags, docId := docId, source := source,
    contentHash := generateContentHash chunk, chunkIndex := index, chunkCount := total,
    embeddingModel := em }

/-- The non-append removal step of `saveMemory` (lines 223–229):

    if (!append && docId) {
      store.chunks = store.chunks.filter(chunk => chunk.docId !== docId);
    } else if (!append) { store.chunks = []; }
-/
def removeStep (append : Bool) (docId : Option Str) (chunks : List MemoryChunk) :
    List MemoryChunk :=
  if !append && strTruthy docId then chunks.filter (fun c => c.docId ≠ docId)
  else if !append then []
  else chunks

/-- The per-candidate deduplication decision: `isDuplicate` against the
pre-insertion store. -/
noncomputable def dupDecision (store1 : List MemoryChunk) (docId : Option Str)
    (chunk : Str) (embedding : Option (List ℚ)) : Except Str Bool :=
  isDuplicate ⟨chunk, generateContentHash chunk, embedding⟩ store1 docId

/-- The deduplication loop of `saveMemory` (lines 249–285): iterates the text
chunks with their index, consults `isDuplicate` against `store.chunks` (the
pre-insertion store), collects survivors into `newChunks` and counts skipped
duplicates.  `embeds[index]?` models `embeddings[index]` (which is
`undefined` past the end of the array). -/
noncomputable def dedupLoop (store1 : List MemoryChunk) (docId source : Option Str)
    (tags : List Str) (embeds : List (List ℚ)) (now : ℤ) (em : Str) (total : ℕ) :
    ℕ → List Str → Except Str (List MemoryChunk × ℕ)
  | _, [] => .ok ([], 0)
  | index, chunk :: rest =>
    match dupDecision store1 docId chunk embeds[index]? with
    | .error e => .error e
    | .ok true =>
      match dedupLoop store1 docId source tags embeds now em total (index + 1) rest with
      | .error e => .error e
      | .ok (ns, skipped) => .ok (ns, skipped + 1)
    | .ok false =>
      match dedupLoop store1 docId source tags embeds now em total (index + 1) rest with
      | .error e => .error e
      | .ok (ns, skipped) =>
        .ok (mkSaveChunk tags docId source now em total chunk embeds[index]? index :: ns,
          skipped)

/-- The result message (lines 293–296). -/
def saveMessage (saved skipped : ℕ) : Str :=
  ("Successfully saved ".toList) ++ (Nat.repr saved).toList ++ (" memory chunks".toList)
    ++ (if 0 < skipped then
          (" (".toList) ++ (Nat.repr skipped).toList ++ (" duplicates skipped)".toList)
        else [])

/-- Model of `saveMemory`. -/
noncomputable def saveMemory (disk : List MemoryChunk) (content : Str) (append : Bool)
    (tags : List Str) (docId source : Option Str)
    (embedsOutcome : Except Str (List (List ℚ))) (now : ℤ) (em : Str) :
    MemoryResult × List MemoryChunk :=
  let store1 := removeStep append docId disk
  let textChunks := splitIntoChunks content
  if textChunks.isEmpty then
    ({ success := false, content := none, size := none,
       error := some ("No content to save".toList),
       relevantChunks := none, generatedResponse := none }, disk)
  else
    match embedsOutcome with
    | .error msg =>
      ({ success := false, content := none, size := none, error := some msg,
         relevantChunks := none, generatedResponse := none }, disk)
    | .ok embeds =>
      match dedupLoop store1 docId source tags embeds now em textChunks.length
          0 textChunks with
      | .error msg =>
        ({ success := false, content := none, size := none, error := some msg,
           relevantChunks := none, generatedResponse := none }, disk)
      | .ok (newChunks, skipped) =>
        ({ success := true, content := some (saveMessage newChunks.length skipped),
           size := some content.length, error := none,
           relevantChunks := none, generatedResponse := none }, store1 ++ newChunks)

/-- C9: when the batched embedding call fails, the save is aborted atomically:
the result is a structured failure (`success = false` with an error string —
the model's totality is the absence of a raw escaping exception), and the
on-disk store is completely unchanged. -/
theorem claim_C9_saveMemory_embedFailure_atomic (disk : List MemoryChunk) (content : Str)
    (append : Bool) (tags : List Str) (docId source : Option Str) (msg : Str)
    (now : ℤ) (em : Str) :
    (saveMemory disk content append tags docId source (.error msg) now em).1.success = false
    ∧ (saveMemory disk content append tags docId source (.error msg) now em).1.error.isSome
    ∧ (saveMemory disk content append tags docId source (.error msg) now em).2 = disk := by
  unfold saveMemory
  by_cases h : (splitIntoChunks content).isEmpty
  · simp [h]
  · simp [h]

/-- Every chunk produced by the dedup loop carries the save's `docId` and the
save's timestamp. -/
theorem dedupLoop_fields (store1 : List MemoryChunk) (docId source : Option Str)
    (tags : List Str) (embeds : List (List ℚ)) (now : ℤ) (em : Str) (total : ℕ) :
    ∀ (chunks : List Str) (index : ℕ) (ns : List MemoryChunk) (skipped : ℕ),
      dedupLoop store1 docId source tags embeds now em total index chunks =
        .ok (ns, skipped) →
      ∀ c ∈ ns, c.docId = docId ∧ c.timestamp = now := by
  intro chunks
  induction chunks with
  | nil =>
    intro index ns skipped h c hc
    rw [dedupLoop] at h
    cases h
    cases hc
  | cons ch rest ih =>
    intro index ns skipped h c hc
    rw [dedupLoop] at h
    cases hdec : dupDecision store1 docId ch embeds[index]? with
    | error e =>
      rw [hdec] at h
      cases h
    | ok b =>
      rw [hdec] at h
      cases hrec : dedupLoop store1 docId source tags embeds now em total (index + 1) rest with
      | error e =>
        rw [hrec] at h
        cases b <;> simp at h
      | ok pr =>
        obtain ⟨ns2, sk2⟩ := pr
        rw [hrec] at h
        cases b
        · simp only [Except.ok.injEq, Prod.mk.injEq] at h
          obtain ⟨hns, _⟩ := h
          subst hns
          rcases List.mem_cons.mp hc with rfl | hc2
          · exact ⟨rfl, rfl⟩
          · exact ih (index + 1) ns2 sk2 hrec c hc2
        · simp only [Except.ok.injEq, Prod.mk.injEq] at h
          obtain ⟨hns, _⟩ := h
          subst hns
          exact ih (index + 1) ns2 sk2 hrec c hc

/-- C8 (amended): on a successful non-append save, the final store is the
prior store minus exactly the chunks whose docId equals the supplied
*non-empty* docId, followed by this save's new chunks; every prior chunk with
a different or absent docId keeps (at least) its multiplicity.  When the
supplied docId is absent *or the empty string* (JS-falsy), the entire prior
store is cleared first and the final store consists solely of the new
chunks. -/
theorem claim_C8_saveMemory_removal (disk : List MemoryChunk) (content : Str)
    (tags : List Str) (docId source : Option Str) (emb : Except Str (List (List ℚ)))
    (now : ℤ) (em : Str) (res : MemoryResult) (disk2 : List MemoryChunk)
    (heq : saveMemory disk content false tags docId source emb now em = (res, disk2))
    (hs : res.success = true) :
    ∃ ns : List MemoryChunk,
      (∀ c ∈ ns, c.docId = docId ∧ c.timestamp = now)
      ∧ (∀ d : Str, docId = some d → d ≠ [] →
          disk2 = disk.filter (fun c => c.docId ≠ some d) ++ ns
          ∧ ∀ c : MemoryChunk, c.docId ≠ some d → disk.count c ≤ disk2.count c)
      ∧ ((docId = none ∨ docId = some []) → disk2 = ns) := by
  unfold saveMemory at heq
  by_cases hemp : (splitIntoChunks content).isEmpty
  · rw [if_pos hemp] at heq
    simp only [Prod.mk.injEq] at heq
    rw [← heq.1] at hs
    cases hs
  · rw [if_neg hemp] at heq
    cases emb with
    | error msg =>
      simp only [Prod.mk.injEq] at heq
      rw [← heq.1] at hs
      cases hs
    | ok embeds =>
      simp only at heq
      cases hloop : dedupLoop (removeStep false docId disk) docId source tags embeds now em
          (splitIntoChunks content).length 0 (splitIntoChunks content) with
      | error msg =>
        rw [hloop] at heq
        simp only [Prod.mk.injEq] at heq
        rw [← heq.1] at hs
        cases hs
      | ok pr =>
        obtain ⟨ns, skipped⟩ := pr
        rw [hloop] at heq
        simp only [Prod.mk.injEq] at heq
        refine ⟨ns, ?_, ?_, ?_⟩
        · exact dedupLoop_fields _ _ _ _ _ _ _ _ _ _ _ _ hloop
        · intro d hdoc hdne
          subst hdoc
          have htr : strTruthy (some d) = true := by
            simp [strTruthy, List.isEmpty_iff, hdne]
          have hrm : removeStep false (some d) disk =
              disk.filter (fun c => c.docId ≠ some d) := by
            unfold removeStep
            rw [if_pos (by simp [htr])]
          rw [hrm] at heq
          refine ⟨heq.2.symm, ?_⟩
          intro c hc
          rw [← heq.2, List.count_append]
          have : (disk.filter (fun x => x.docId ≠ some d)).count c = disk.count c :=
            List.count_filter (by simpa using hc)
          omega
        · intro hdoc
          have htr : strTruthy docId = false := by
            rcases hdoc with rfl | rfl <;> simp [strTruthy]
          have hrm : removeStep false docId disk = [] := by
            unfold removeStep
            rw [if_neg (by simp [htr]), if_pos (by simp)]
          rw [hrm] at heq
          simpa using heq.2.symm

/-- C8 counterexample: the claim says that when a docId is supplied, only the
chunks with that docId are removed and chunks with a *different* docId remain.
Supplying the (present but falsy) empty-string docId on a non-append save
clears the entire store: the prior chunk stored under docId `"x"` is gone from
the resulting store even though its docId differs from the supplied one. -/
theorem claim_C8_counterexample :
    (saveMemory [chunkUnderX] ("hi".toList) false [] (some []) none
        (.ok [[1]]) 5 ("m".toList)).1.success = true
    ∧ ((saveMemory [chunkUnderX] ("hi".toList) false [] (some []) none
        (.ok [[1]]) 5 ("m".toList)).2).count chunkUnderX = 0
    ∧ chunkUnderX.docId ≠ some []
    ∧ ([chunkUnderX].count chunkUnderX = 1) := by decide

/-- Witness for C8: the amended theorem at a concrete successful save under
docId `"y"` against a store holding one chunk under docId `"x"`. -/
theorem claim_C8_saveMemory_removal_witness :
    ∃ ns : List MemoryChunk,
      (∀ c ∈ ns, c.docId = some ("y".toList) ∧ c.timestamp = 5)
      ∧ (∀ d : Str, some ("y".toList) = some d → d ≠ [] →
          (saveMemory [chunkUnderX] ("hi".toList) false [] (some ("y".toList)) none
              (.ok [[1]]) 5 ("m".toList)).2 =
            [chunkUnderX].filter (fun c => c.docId ≠ some d) ++ ns
          ∧ ∀ c : MemoryChunk, c.docId ≠ some d →
              [chunkUnderX].count c ≤
                ((saveMemory [chunkUnderX] ("hi".toList) false [] (some ("y".toList)) none
                  (.ok [[1]]) 5 ("m".toList)).2).count c)
      ∧ ((some ("y".toList) = none ∨ some ("y".toList) = some ([] : Str)) →
          (saveMemory [chunkUnderX] ("hi".toList) false [] (some ("y".toList)) none
            (.ok [[1]]) 5 ("m".toList)).2 = ns) :=
  claim_C8_saveMemory_removal [chunkUnderX] ("hi".toList) [] (some ("y".toList)) none
    (.ok [[1]]) 5 ("m".toList) _ _ Prod.mk.eta.symm (by decide)

/-- Completeness of the dedup loop: when every candidate's duplicate check
(against the fixed pre-insertion store) returns without throwing, the loop
succeeds, conserves the candidate count between survivors and skips, and
keeps exactly the candidates whose check said "not a duplicate". -/
theorem dedupLoop_complete (store1 : List MemoryChunk) (docId source : Option Str)
    (tags : List Str) (embeds : List (List ℚ)) (now : ℤ) (em : Str) (total : ℕ) :
    ∀ (chunks : List Str) (index : ℕ),
      (∀ (k : ℕ) (c : Str), chunks[k]? = some c →
          ∃ b, dupDecision store1 docId c embeds[index + k]? = .ok b) →
      ∃ ns skipped,
        dedupLoop store1 docId source tags embeds now em total index chunks =
          .ok (ns, skipped)
        ∧ ns.length + skipped = chunks.length
        ∧ (∀ (k : ℕ) (c : Str), chunks[k]? = some c →
            dupDecision store1 docId c embeds[index + k]? = .ok false →
            mkSaveChunk tags docId source now em total c embeds[index + k]? (index + k) ∈ ns) := by
  intro chunks
  induction chunks with
  | nil =>
    intro index _
    exact ⟨[], 0, rfl, rfl, fun k c hkc => by simp at hkc⟩
  | cons ch rest ih =>
    intro index hok
    obtain ⟨b0, hb0⟩ := hok 0 ch (by simp)
    have hokr : ∀ (k : ℕ) (c : Str), rest[k]? = some c →
        ∃ b, dupDecision store1 docId c embeds[(index + 1) + k]? = .ok b := by
      intro k c hkc
      have := hok (k + 1) c (by simpa using hkc)
      have harith : index + (k + 1) = index + 1 + k := by omega
      rwa [harith] at this
    obtain ⟨ns, skipped, hrec, hlen, hmem⟩ := ih (index + 1) hokr
    rw [Nat.add_zero] at hb0
    cases b0 with
    | true =>
      refine ⟨ns, skipped + 1, ?_, ?_, ?_⟩
      · rw [dedupLoop, hb0, hrec]
      · simp only [List.length_cons]
        omega
      · intro k c hkc hfalse
        cases k with
        | zero =>
          simp only [List.getElem?_cons_zero, Option.some.injEq] at hkc
          subst hkc
          rw [Nat.add_zero] at hfalse
          rw [hb0] at hfalse
          cases hfalse
        | succ k2 =>
          have hk2 : rest[k2]? = some c := by simpa using hkc
          have harith : index + (k2 + 1) = index + 1 + k2 := by omega
          rw [harith]
          exact hmem k2 c hk2 (by rw [← harith]; exact hfalse)
    | false =>
      refine ⟨mkSaveChunk tags docId source now em total ch embeds[index]? index :: ns,
        skipped, ?_, ?_, ?_⟩
      · rw [dedupLoop, hb0, hrec]
      · simp only [List.length_cons]
        omega
      · intro k c hkc _
        cases k with
        | zero =>
          simp only [List.getElem?_cons_zero, Option.some.injEq] at hkc
          subst hkc
          rw [Nat.add_zero]
          exact List.mem_cons_self _ _
        | succ k2 =>
          have hk2 : rest[k2]? = some c := by simpa using hkc
          have harith : index + (k2 + 1) = index + 1 + k2 := by omega
          rw [harith]
          exact List.mem_cons_of_mem _
            (hmem k2 c hk2 (by
              rw [← harith]
              have := hkc
              rw [show index + 1 + k2 = index + (k2 + 1) from harith.symm] at *
              exact (by assumption)))

/-- C10: within one save, each candidate's duplicate check consults only the
fixed pre-insertion store (`dupDecision` takes only the candidate, `store1`
and `docId`), so two candidates of one batch with identical content and
identical embedding receive the identical decision; if that decision is "not
a duplicate", both are kept by the dedup loop — and the skip counter excludes
both. -/
theorem claim_C10_dedup_ignores_batch (store1 : List MemoryChunk) (docId source : Option Str)
    (tags : List Str) (embeds : List (List ℚ)) (now : ℤ) (em : Str) (total : ℕ)
    (chunks : List Str)
    (hok : ∀ (k : ℕ) (c : Str), chunks[k]? = some c →
        ∃ b, dupDecision store1 docId c embeds[k]? = .ok b)
    (i j : ℕ) (ci cj : Str) (hi : chunks[i]? = some ci) (hj : chunks[j]? = some cj)
    (hij : i ≠ j) (hsame : ci = cj) (hemb : embeds[i]? = embeds[j]?)
    (hnotdup : dupDecision store1 docId ci embeds[i]? = .ok false) :
    ∃ (ns : List MemoryChunk) (skipped : ℕ),
      dedupLoop store1 docId source tags embeds now em total 0 chunks = .ok (ns, skipped)
      ∧ mkSaveChunk tags docId source now em total ci embeds[i]? i ∈ ns
      ∧ mkSaveChunk tags docId source now em total cj embeds[j]? j ∈ ns
      ∧ skipped + 2 ≤ chunks.length := by
  have hok0 : ∀ (k : ℕ) (c : Str), chunks[k]? = some c →
      ∃ b, dupDecision store1 docId c embeds[0 + k]? = .ok b := by
    intro k c hkc
    rw [Nat.zero_add]
    exact hok k c hkc
  obtain ⟨ns, skipped, hloop, hlen, hmem⟩ :=
    dedupLoop_complete store1 docId source tags embeds now em total chunks 0 hok0
  have hmi : mkSaveChunk tags docId source now em total ci embeds[i]? i ∈ ns := by
    have := hmem i ci hi (by rw [Nat.zero_add]; exact hnotdup)
    rwa [Nat.zero_add] at this
  have hnotdupj : dupDecision store1 docId cj embeds[j]? = .ok false := by
    rw [← hsame, ← hemb]
    exact hnotdup
  have hmj : mkSaveChunk tags docId source now em total cj embeds[j]? j ∈ ns := by
    have := hmem j cj hj (by rw [Nat.zero_add]; exact hnotdupj)
    rwa [Nat.zero_add] at this
  have hdistinct : mkSaveChunk tags docId source now em total ci embeds[i]? i ≠
      mkSaveChunk tags docId source now em total cj embeds[j]? j := by
    intro hEq
    have : i = j := congrArg MemoryChunk.chunkIndex hEq
    exact hij this
  have h2 : 2 ≤ ns.length := by
    have hsub : ({mkSaveChunk tags docId source now em total ci embeds[i]? i,
        mkSaveChunk tags docId source now em total cj embeds[j]? j} : Finset MemoryChunk) ⊆
        ns.toFinset := by
      intro x hx
      rcases Finset.mem_insert.mp hx with rfl | hx2
      · exact List.mem_toFinset.mpr hmi
      · rw [Finset.mem_singleton] at hx2
        subst hx2
        exact List.mem_toFinset.mpr hmj
    calc (2 : ℕ) = ({mkSaveChunk tags docId source now em total ci embeds[i]? i,
          mkSaveChunk tags docId source now em total cj embeds[j]? j} :
          Finset MemoryChunk).card := (Finset.card_pair hdistinct).symm
      _ ≤ ns.toFinset.card := Finset.card_le_card hsub
      _ ≤ ns.length := ns.toFinset_card_le
  exact ⟨ns, skipped, hloop, hmi, hmj, by omega⟩

/-- Witness for C10: two identical candidates `"aa"` with identical embeddings
against the empty pre-insertion store are both kept and none is counted as
skipped. -/
theorem claim_C10_dedup_ignores_batch_witness :
    ∃ (ns : List MemoryChunk) (skipped : ℕ),
      dedupLoop [] none none [] [[1], [1]] 7 ("m".toList) 2 0
          ["aa".toList, "aa".toList] = .ok (ns, skipped)
      ∧ mkSaveChunk [] none none 7 ("m".toList) 2 ("aa".toList)
          ([[(1 : ℚ)], [(1 : ℚ)]][0]?) 0 ∈ ns
      ∧ mkSaveChunk [] none none 7 ("m".toList) 2 ("aa".toList)
          ([[(1 : ℚ)], [(1 : ℚ)]][1]?) 1 ∈ ns
      ∧ skipped + 2 ≤ (["aa".toList, "aa".toList]).length :=
  claim_C10_dedup_ignores_batch [] none none [] [[1], [1]] 7 ("m".toList) 2
    ["aa".toList, "aa".toList]
    (fun k c hkc => by
      match k, hkc with
      | 0, h => exact ⟨false, by cases h; rfl⟩
      | 1, h => exact ⟨false, by cases h; rfl⟩
      | (n + 2), h => simp at h)
    0 1 ("aa".toList) ("aa".toList) rfl rfl (by decide) rfl rfl rfl

/-! ### Min-heap top-K selection (`MinHeap`, min-heap.ts)

The heap is a JS array; `push(item, maxSize)` either appends and bubbles up,
or — when full and the new item beats the root — replaces the root and
bubbles down; `toSortedArray` sorts descending by the comparator.

The class is generic in the comparator; every instantiation in this code base
uses `(a, b) => key(a) - key(b)` for a numeric key `key`, so the embedding is
parametrized by the key function `sc : α → K` into a linear order, and the
sign tests `compareFn(x, y) > 0 / ≥ 0 / < 0` become `sc y < sc x / sc y ≤
sc x / sc x < sc y`.  Out-of-range reads (`undefined`), which in JS would
throw on the subsequent `.score` access, are modelled by `Option`; they are
unreachable for `0 < maxSize`. -/

section Heap

variable {α : Type} {K : Type} [LinearOrder K]

/-- The in-place swap `[heap[i], heap[j]] = [heap[j], heap[i]]`. -/
def swapIdx (l : List α) (i j : ℕ) : List α :=
  match l[i]?, l[j]? with
  | some x, some y => (l.set i y).set j x
  | _, _ => l

/-- Parent index in the array encoding of the binary heap. -/
def par (i : ℕ) : ℕ := (i - 1) / 2

@[simp] theorem swapIdx_length (l : List α) (i j : ℕ) :
    (swapIdx l i j).length = l.length := by
  unfold swapIdx
  cases l[i]? <;> cases l[j]? <;> simp

theorem swapIdx_getElem? (l : List α) {i j : ℕ} {x y : α}
    (hi : l[i]? = some x) (hj : l[j]? = some y) (k : ℕ) :
    (swapIdx l i j)[k]? = if k = j then some x else if k = i then some y else l[k]? := by
  have hil : i < l.length := (List.getElem?_eq_some.mp hi).1
  have hjl : j < l.length := (List.getElem?_eq_some.mp hj).1
  unfold swapIdx
  rw [hi, hj]
  simp only [List.getElem?_set, List.length_set]
  by_cases hkj : k = j
  · subst hkj
    simp [hjl]
  · by_cases hki : k = i
    · subst hki
      simp [hil, fun h : k = j => hkj h, Ne.symm hkj, hkj]
    · simp [Ne.symm hkj, Ne.symm hki, hkj, hki]

/-- Replacing a present element `c` by `d` and re-consing `c` permutes to
consing `d`. -/
theorem set_cons_perm : ∀ (t : List α) (m : ℕ) (c d : α), t[m]? = some c →
    List.Perm (c :: t.set m d) (d :: t) := by
  intro t
  induction t with
  | nil =>
    intro m c d h
    simp at h
  | cons b u ih =>
    intro m c d h
    cases m with
    | zero =>
      simp only [List.getElem?_cons_zero, Option.some.injEq] at h
      subst h
      simpa using List.Perm.swap d b u
    | succ m2 =>
      simp only [List.getElem?_cons_succ] at h
      have hperm := ih m2 c d h
      have h1 : (c :: (b :: u).set (m2 + 1) d) = c :: b :: u.set m2 d := by simp
      rw [h1]
      exact ((List.Perm.swap b c _).trans (hperm.cons b)).trans (List.Perm.swap d b u)

/-- Swapping two present positions permutes the list. -/
theorem double_set_perm : ∀ (l : List α) (i j : ℕ) (x y : α),
    l[i]? = some x → l[j]? = some y → List.Perm ((l.set i y).set j x) l := by
  intro l
  induction l with
  | nil =>
    intro i j x y hi _
    simp at hi
  | cons a t ih =>
    intro i j x y hi hj
    cases i with
    | zero =>
      simp only [List.getElem?_cons_zero, Option.some.injEq] at hi
      subst hi
      cases j with
      | zero =>
        simp only [List.getElem?_cons_zero, Option.some.injEq] at hj
        subst hj
        simp
      | succ m =>
        simp only [List.getElem?_cons_succ] at hj
        have h1 : ((a :: t).set 0 y).set (m + 1) a = y :: t.set m a := by simp
        rw [h1]
        exact set_cons_perm t m y a hj
    | succ n =>
      simp only [List.getElem?_cons_succ] at hi
      cases j with
      | zero =>
        simp only [List.getElem?_cons_zero, Option.some.injEq] at hj
        subst hj
        have h1 : ((a :: t).set (n + 1) a).set 0 x = x :: t.set n a := by simp
        rw [h1]
        exact set_cons_perm t n x a hi
      | succ m =>
        simp only [List.getElem?_cons_succ] at hj
        have h1 : ((a :: t).set (n + 1) y).set (m + 1) x = a :: (t.set n y).set m x := by
          simp
        rw [h1]
        exact (ih n m x y hi hj).cons a

theorem swapIdx_perm (l : List α) (i j : ℕ) : List.Perm (swapIdx l i j) l := by
  unfold swapIdx
  cases hi : l[i]? with
  | none => exact List.Perm.refl l
  | some x =>
    cases hj : l[j]? with
    | none => exact List.Perm.refl l
    | some y => exact double_set_perm l i j x y hi hj

theorem par_lt {i : ℕ} (h : i ≠ 0) : par i < i := by
  unfold par
  omega

theorem par_le (i : ℕ) : par i ≤ i := by
  unfold par
  omega

/-- A child index of `q` is `2q+1` or `2q+2`. -/
theorem child_eq {c q : ℕ} (hpar : par c = q) (hne : c ≠ q) :
    c = 2 * q + 1 ∨ c = 2 * q + 2 := by
  unfold par at hpar
  omega

/-- Model of `bubbleUp` (min-heap.ts lines 39–46): swap with the parent while
strictly smaller than it. -/
def bubbleUp (sc : α → K) (l : List α) (i : ℕ) : List α :=
  if h0 : i = 0 then l
  else
    match l[i]?, l[par i]? with
    | some x, some y =>
      if sc y ≤ sc x then l
      else bubbleUp sc (swapIdx l i (par i)) (par i)
    | _, _ => l
termination_by i
decreasing_by exact par_lt h0

/-- Strict comparison of the values at two positions (false when either is
absent). -/
def ltAt (sc : α → K) (l : List α) (i j : ℕ) : Bool :=
  match l[i]?, l[j]? with
  | some x, some y => decide (sc x < sc y)
  | _, _ => false

/-- The `minIndex` computed by one round of `bubbleDown` (lines 52–62). -/
def downTarget (sc : α → K) (l : List α) (i : ℕ) : ℕ :=
  let m1 := if 2 * i + 1 < l.length && ltAt sc l (2 * i + 1) i then 2 * i + 1 else i
  if 2 * i + 2 < l.length && ltAt sc l (2 * i + 2) m1 then 2 * i + 2 else m1

theorem downTarget_cases (sc : α → K) (l : List α) (i : ℕ) :
    downTarget sc l i = i ∨
      (i < downTarget sc l i ∧ downTarget sc l i < l.length) := by
  unfold downTarget
  by_cases h1 : (2 * i + 1 < l.length && ltAt sc l (2 * i + 1) i) = true
  · simp only [h1, if_true]
    by_cases h2 : (2 * i + 2 < l.length && ltAt sc l (2 * i + 2) (2 * i + 1)) = true
    · simp only [h2, if_true]
      rw [Bool.and_eq_true] at h2
      right
      exact ⟨by omega, by simpa using h2.1⟩
    · rw [Bool.not_eq_true] at h2
      simp only [h2, Bool.false_eq_true, if_false]
      rw [Bool.and_eq_true] at h1
      right
      exact ⟨by omega, by simpa using h1.1⟩
  · rw [Bool.not_eq_true] at h1
    simp only [h1, Bool.false_eq_true, if_false]
    by_cases h2 : (2 * i + 2 < l.length && ltAt sc l (2 * i + 2) i) = true
    · simp only [h2, if_true]
      rw [Bool.and_eq_true] at h2
      right
      exact ⟨by omega, by simpa using h2.1⟩
    · rw [Bool.not_eq_true] at h2
      simp only [h2, Bool.false_eq_true, if_false]
      left
      trivial

/-- Model of `bubbleDown` (min-heap.ts lines 51–68). -/
def bubbleDown (sc : α → K) (l : List α) (i : ℕ) : List α :=
  if h : downTarget sc l i = i then l
  else bubbleDown sc (swapIdx l i (downTarget sc l i)) (downTarget sc l i)
termination_by l.length - i
decreasing_by
  rcases downTarget_cases sc l i with heq | ⟨hlt, hlen⟩
  · exact absurd heq h
  · simp only [swapIdx_length]
    omega

/-- Model of `MinHeap.push` (lines 26–34).  With `maxSize = 0` and an empty
heap the JS code reads `undefined` and would throw on the comparator's field
access; the model returns the heap unchanged — that case is unreachable for
`0 < maxSize`. -/
def heapPush (sc : α → K) (l : List α) (x : α) (maxSize : ℕ) : List α :=
  if l.length < maxSize then bubbleUp sc (l ++ [x]) l.length
  else
    match l[0]? with
    | some r => if sc r < sc x then bubbleDown sc (l.set 0 x) 0 else l
    | none => l

/-- Model of `toSortedArray` (line 75–77): stable sort, highest key first. -/
def toSortedArray (sc : α → K) (l : List α) : List α :=
  List.insertionSort (fun a b => sc b ≤ sc a) l

/-- All pushes of `findSimilarEmbeddings`: fold the items into an initially
empty bounded heap. -/
def heapInsertAll (sc : α → K) (k : ℕ) (items : List α) : List α :=
  items.foldl (fun h x => heapPush sc h x k) []

/-- The heap-based top-K selector: push everything, then read the sorted
array. -/
def heapTopK (sc : α → K) (k : ℕ) (items : List α) : List α :=
  toSortedArray sc (heapInsertAll sc k items)

theorem bubbleUp_perm (sc : α → K) : ∀ (i : ℕ) (l : List α),
    List.Perm (bubbleUp sc l i) l := by
  intro i
  induction i using Nat.strong_induction_on with
  | _ i ih =>
    intro l
    by_cases h0 : i = 0
    · subst h0
      rw [bubbleUp]
      simp
    · rw [bubbleUp, dif_neg h0]
      cases hx : l[i]? with
      | none => exact List.Perm.refl l
      | some x =>
        cases hy : l[par i]? with
        | none => exact List.Perm.refl l
        | some y =>
          simp only
          by_cases hc : sc y ≤ sc x
          · rw [if_pos hc]
          · rw [if_neg hc]
            exact (ih (par i) (par_lt h0) _).trans (swapIdx_perm l i (par i))

theorem bubbleDown_perm (sc : α → K) : ∀ (n : ℕ) (l : List α) (i : ℕ),
    l.length - i ≤ n → List.Perm (bubbleDown sc l i) l := by
  intro n
  induction n with
  | zero =>
    intro l i hn
    rw [bubbleDown]
    rcases downTarget_cases sc l i with heq | ⟨hlt, hlen⟩
    · rw [dif_pos heq]
    · omega
  | succ n ih =>
    intro l i hn
    rw [bubbleDown]
    rcases downTarget_cases sc l i with heq | ⟨hlt, hlen⟩
    · rw [dif_pos heq]
    · have hne : downTarget sc l i ≠ i := by omega
      rw [dif_neg hne]
      refine (ih _ _ ?_).trans (swapIdx_perm l i (downTarget sc l i))
      simp only [swapIdx_length]
      omega

/-- The binary min-heap shape invariant on the array encoding: every present
position's value is at least its parent's value. -/
def IsHeap (sc : α → K) (l : List α) : Prop :=
  ∀ (j : ℕ) (x y : α), l[j]? = some x → l[par j]? = some y → sc y ≤ sc x

/-- In a heap, the root is a minimum. -/
theorem IsHeap.root_le {sc : α → K} {l : List α} (hh : IsHeap sc l) {r : α}
    (hr : l[0]? = some r) : ∀ (j : ℕ) (x : α), l[j]? = some x → sc r ≤ sc x := by
  intro j
  induction j using Nat.strong_induction_on with
  | _ j ih =>
    intro x hx
    cases hj0 : j with
    | zero =>
      subst hj0
      rw [hr] at hx
      cases hx
      exact le_refl _
    | succ n =>
      subst hj0
      have hpar : par (n + 1) < n + 1 := par_lt (Nat.succ_ne_zero n)
      have hjlen : n + 1 < l.length := (List.getElem?_eq_some.mp hx).1
      have hplen : par (n + 1) < l.length := lt_trans hpar hjlen
      have hy : l[par (n + 1)]? = some l[par (n + 1)] := List.getElem?_eq_getElem hplen
      exact le_trans (ih _ hpar _ hy) (hh (n + 1) x _ hx hy)

/-- Invariant of the sift-up pass: every parent-child inequality holds except
possibly into position `i`, and `i`'s children already dominate `i`'s
parent. -/
def UpInv (sc : α → K) (l : List α) (i : ℕ) : Prop :=
  (∀ (j : ℕ) (x y : α), j ≠ i → l[j]? = some x → l[par j]? = some y → sc y ≤ sc x) ∧
  (∀ (c : ℕ) (x g : α), par c = i → c ≠ i → l[c]? = some x → l[par i]? = some g →
    sc g ≤ sc x)

theorem upInv_swap {sc : α → K} {l : List α} {i : ℕ} {x y : α}
    (h0 : i ≠ 0) (hx : l[i]? = some x) (hy : l[par i]? = some y)
    (hxy : sc x < sc y) (hinv : UpInv sc l i) :
    UpInv sc (swapIdx l i (par i)) (par i) := by
  have hpi : par i < i := par_lt h0
  have hip : (i : ℕ) ≠ par i := by omega
  have hsw : ∀ k, (swapIdx l i (par i))[k]? =
      if k = par i then some x else if k = i then some y else l[k]? :=
    swapIdx_getElem? l hx hy
  constructor
  · intro j x1 y1 hjp hx1 hy1
    rw [hsw j] at hx1
    rw [hsw (par j)] at hy1
    rw [if_neg hjp] at hx1
    by_cases hji : j = i
    · subst hji
      rw [if_pos rfl] at hx1
      rw [if_pos rfl] at hy1
      cases hx1
      cases hy1
      exact le_of_lt hxy
    · rw [if_neg hji] at hx1
      by_cases hpj : par j = par i
      · rw [if_pos hpj] at hy1
        cases hy1
        have h1 : sc y ≤ sc x1 := hinv.1 j x1 y hji hx1 (by rw [hpj]; exact hy)
        exact le_trans (le_of_lt hxy) h1
      · rw [if_neg hpj] at hy1
        by_cases hpji : par j = i
        · rw [if_pos hpji] at hy1
          cases hy1
          exact hinv.2 j x1 y hpji hji hx1 hy
        · rw [if_neg hpji] at hy1
          exact hinv.1 j x1 y1 hji hx1 hy1
  · intro c x1 g hparc hcp hc hg
    rw [hsw c] at hc
    rw [hsw (par (par i))] at hg
    rw [if_neg hcp] at hc
    by_cases hp0 : par i = 0
    · have hpp : par (par i) = par i := by rw [hp0]; rfl
      rw [if_pos hpp] at hg
      cases hg
      by_cases hci : c = i
      · rw [if_pos hci] at hc
        cases hc
        exact le_of_lt hxy
      · rw [if_neg hci] at hc
        have h1 : sc y ≤ sc x1 := hinv.1 c x1 y hci hc (by rw [hparc]; exact hy)
        exact le_trans (le_of_lt hxy) h1
    · have hppi : par (par i) < par i := par_lt hp0
      have hppne : par (par i) ≠ par i := by omega
      have hppnei : par (par i) ≠ i := by omega
      rw [if_neg hppne, if_neg hppnei] at hg
      by_cases hci : c = i
      · rw [if_pos hci] at hc
        cases hc
        exact hinv.1 (par i) y g (by omega) hy hg
      · rw [if_neg hci] at hc
        have h1 : sc y ≤ sc x1 := hinv.1 c x1 y hci hc (by rw [hparc]; exact hy)
        have h2 : sc g ≤ sc y := hinv.1 (par i) y g (by omega) hy hg
        exact le_trans h2 h1

theorem bubbleUp_isHeap (sc : α → K) : ∀ (i : ℕ) (l : List α),
    UpInv sc l i → IsHeap sc (bubbleUp sc l i) := by
  intro i
  induction i using Nat.strong_induction_on with
  | _ i ih =>
    intro l hinv
    by_cases h0 : i = 0
    · subst h0
      rw [bubbleUp, dif_pos rfl]
      intro j x y hx hy
      by_cases hj : j = 0
      · subst hj
        simp only [show par 0 = 0 from rfl] at hy
        rw [hx] at hy
        cases hy
        exact le_refl _
      · exact hinv.1 j x y hj hx hy
    · rw [bubbleUp, dif_neg h0]
      cases hx : l[i]? with
      | none =>
        intro j x1 y1 hx1 hy1
        by_cases hj : j = i
        · subst hj
          rw [hx] at hx1
          cases hx1
        · exact hinv.1 j x1 y1 hj hx1 hy1
      | some x =>
        cases hy : l[par i]? with
        | none =>
          intro j x1 y1 hx1 hy1
          by_cases hj : j = i
          · subst hj
            rw [hy] at hy1
            cases hy1
          · exact hinv.1 j x1 y1 hj hx1 hy1
        | some y =>
          simp only
          by_cases hc : sc y ≤ sc x
          · rw [if_pos hc]
            intro j x1 y1 hx1 hy1
            by_cases hj : j = i
            · subst hj
              rw [hx] at hx1
              rw [hy] at hy1
              cases hx1
              cases hy1
              exact hc
            · exact hinv.1 j x1 y1 hj hx1 hy1
          · rw [if_neg hc]
            push_neg at hc
            exact ih (par i) (par_lt h0) _ (upInv_swap h0 hx hy hc hinv)

/-- The appended element satisfies the sift-up precondition on a heap. -/
theorem upInv_append {sc : α → K} {l : List α} (hh : IsHeap sc l) (x : α) :
    UpInv sc (l ++ [x]) l.length := by
  constructor
  · intro j x1 y1 hj hx1 hy1
    have hjlen : j < (l ++ [x]).length := (List.getElem?_eq_some.mp hx1).1
    rw [List.length_append, List.length_singleton] at hjlen
    have hjl : j < l.length := by omega
    have hpl : par j < l.length := lt_of_le_of_lt (par_le j) hjl
    rw [List.getElem?_append, if_pos hjl] at hx1
    rw [List.getElem?_append, if_pos hpl] at hy1
    exact hh j x1 y1 hx1 hy1
  · intro c x1 g hparc hcne hc _
    rcases child_eq hparc hcne with rfl | rfl
    · have : (l ++ [x])[2 * l.length + 1]? = none :=
        List.getElem?_eq_none (by simp; omega)
      rw [this] at hc
      cases hc
    · have : (l ++ [x])[2 * l.length + 2]? = none :=
        List.getElem?_eq_none (by simp; omega)
      rw [this] at hc
      cases hc

instance instTotalDescBy (sc : α → K) : IsTotal α (fun a b => sc b ≤ sc a) :=
  ⟨fun a b => (le_total (sc b) (sc a)).elim Or.inl Or.inr⟩

instance instTransDescBy (sc : α → K) : IsTrans α (fun a b => sc b ≤ sc a) :=
  ⟨fun _ _ _ h1 h2 => le_trans h2 h1⟩

theorem ltAt_true_elim {sc : α → K} {l : List α} {i j : ℕ}
    (h : ltAt sc l i j = true) :
    ∃ x y, l[i]? = some x ∧ l[j]? = some y ∧ sc x < sc y := by
  unfold ltAt at h
  cases hx : l[i]? with
  | none => rw [hx] at h; simp at h
  | some x =>
    cases hy : l[j]? with
    | none => rw [hx, hy] at h; simp at h
    | some y =>
      rw [hx, hy] at h
      simp only [decide_eq_true_eq] at h
      exact ⟨x, y, rfl, rfl, h⟩

theorem ltAt_false_elim {sc : α → K} {l : List α} {i j : ℕ} {x y : α}
    (h : ltAt sc l i j = false) (hx : l[i]? = some x) (hy : l[j]? = some y) :
    sc y ≤ sc x := by
  unfold ltAt at h
  rw [hx, hy] at h
  simp only [decide_eq_false_iff_not] at h
  exact le_of_not_lt h

/-- When `bubbleDown` stops (`minIndex === index`), the value at `i` already
bounds both of its present children. -/
theorem downTarget_eq_self {sc : α → K} {l : List α} {i : ℕ}
    (hm : downTarget sc l i = i) :
    ∀ (c : ℕ) (x y : α), par c = i → c ≠ i → l[c]? = some x → l[i]? = some y →
      sc y ≤ sc x := by
  intro c x y hparc hcne hc hyi
  have hclen : c < l.length := (List.getElem?_eq_some.mp hc).1
  unfold downTarget at hm
  rcases child_eq hparc hcne with rfl | rfl
  · by_cases h1 : (2 * i + 1 < l.length && ltAt sc l (2 * i + 1) i) = true
    · exfalso
      simp only [h1, if_true] at hm
      by_cases h2 : (2 * i + 2 < l.length && ltAt sc l (2 * i + 2) (2 * i + 1)) = true
      · simp only [h2, if_true] at hm
        omega
      · rw [Bool.not_eq_true] at h2
        simp only [h2, Bool.false_eq_true, if_false] at hm
        omega
    · cases hlt : ltAt sc l (2 * i + 1) i with
      | false => exact ltAt_false_elim hlt hc hyi
      | true => exact absurd (by rw [hlt, decide_eq_true hclen]; rfl) h1
  · by_cases h1 : (2 * i + 1 < l.length && ltAt sc l (2 * i + 1) i) = true
    · exfalso
      simp only [h1, if_true] at hm
      by_cases h2 : (2 * i + 2 < l.length && ltAt sc l (2 * i + 2) (2 * i + 1)) = true
      · simp only [h2, if_true] at hm
        omega
      · rw [Bool.not_eq_true] at h2
        simp only [h2, Bool.false_eq_true, if_false] at hm
        omega
    · rw [Bool.not_eq_true] at h1
      simp only [h1, Bool.false_eq_true, if_false] at hm
      by_cases h2 : (2 * i + 2 < l.length && ltAt sc l (2 * i + 2) i) = true
      · simp only [h2, if_true] at hm
        omega
      · cases hlt : ltAt sc l (2 * i + 2) i with
        | false => exact ltAt_false_elim hlt hc hyi
        | true => exact absurd (by rw [hlt, decide_eq_true hclen]; rfl) h2

/-- When `bubbleDown` recurses, the target is a child of `i` holding the
strict minimum of `i` and its children. -/
theorem downTarget_ne_self {sc : α → K} {l : List α} {i : ℕ}
    (hm : downTarget sc l i ≠ i) :
    par (downTarget sc l i) = i ∧ i < downTarget sc l i ∧
      ∃ xm xi, l[downTarget sc l i]? = some xm ∧ l[i]? = some xi ∧ sc xm < sc xi ∧
        ∀ (c : ℕ) (x : α), par c = i → c ≠ i → l[c]? = some x → sc xm ≤ sc x := by
  have hmain := hm
  unfold downTarget at hmain ⊢
  by_cases h1 : (2 * i + 1 < l.length && ltAt sc l (2 * i + 1) i) = true
  · simp only [h1, if_true] at hmain ⊢
    rw [Bool.and_eq_true] at h1
    obtain ⟨x1, xi, hx1, hxi, hlt1⟩ := ltAt_true_elim h1.2
    by_cases h2 : (2 * i + 2 < l.length && ltAt sc l (2 * i + 2) (2 * i + 1)) = true
    · simp only [h2, if_true]
      rw [Bool.and_eq_true] at h2
      obtain ⟨xm, x1b, hxm, hx1b, hlt2⟩ := ltAt_true_elim h2.2
      rw [hx1] at hx1b
      cases hx1b
      refine ⟨by unfold par; omega, by omega, xm, xi, hxm, hxi, lt_trans hlt2 hlt1, ?_⟩
      intro c x hparc hcne hc
      rcases child_eq hparc hcne with rfl | rfl
      · rw [hx1] at hc
        cases hc
        exact le_of_lt hlt2
      · rw [hxm] at hc
        cases hc
        exact le_refl _
    · rw [Bool.not_eq_true] at h2
      simp only [h2, Bool.false_eq_true, if_false]
      refine ⟨by unfold par; omega, by omega, x1, xi, hx1, hxi, hlt1, ?_⟩
      intro c x hparc hcne hc
      rcases child_eq hparc hcne with rfl | rfl
      · rw [hx1] at hc
        cases hc
        exact le_refl _
      · have hclen : 2 * i + 2 < l.length := (List.getElem?_eq_some.mp hc).1
        cases hlt : ltAt sc l (2 * i + 2) (2 * i + 1) with
        | false => exact ltAt_false_elim hlt hc hx1
        | true =>
          rw [hlt, decide_eq_true hclen] at h2
          simp at h2
  · rw [Bool.not_eq_true] at h1
    simp only [h1, Bool.false_eq_true, if_false] at hmain ⊢
    by_cases h2 : (2 * i + 2 < l.length && ltAt sc l (2 * i + 2) i) = true
    · simp only [h2, if_true]
      rw [Bool.and_eq_true] at h2
      obtain ⟨xm, xi, hxm, hxi, hlt2⟩ := ltAt_true_elim h2.2
      refine ⟨by unfold par; omega, by omega, xm, xi, hxm, hxi, hlt2, ?_⟩
      intro c x hparc hcne hc
      rcases child_eq hparc hcne with rfl | rfl
      · have hclen : 2 * i + 1 < l.length := (List.getElem?_eq_some.mp hc).1
        cases hlt : ltAt sc l (2 * i + 1) i with
        | false => exact le_trans (le_of_lt hlt2) (ltAt_false_elim hlt hc hxi)
        | true =>
          rw [hlt, decide_eq_true hclen] at h1
          simp at h1
      · rw [hxm] at hc
        cases hc
        exact le_refl _
    · rw [Bool.not_eq_true] at h2
      simp only [h2, Bool.false_eq_true, if_false] at hmain
      exact absurd rfl hmain

/-- Invariant of the sift-down pass: every parent-child inequality holds except
(possibly) the edges from `i` down to its children, and when `i` has a parent
its value already bounds `i`'s children. -/
def DownInv (sc : α → K) (l : List α) (i : ℕ) : Prop :=
  (∀ (j : ℕ) (x y : α), par j ≠ i → l[j]? = some x → l[par j]? = some y → sc y ≤ sc x) ∧
  (∀ (c : ℕ) (x g : α), par c = i → c ≠ i → 0 < i → l[c]? = some x →
    l[par i]? = some g → sc g ≤ sc x)

theorem isHeap_of_downTarget_self {sc : α → K} {l : List α} {i : ℕ}
    (hd : DownInv sc l i) (hm : downTarget sc l i = i) : IsHeap sc l := by
  intro j x y hx hy
  by_cases hp : par j = i
  · by_cases hj : j = i
    · subst hj
      rw [hp] at hy
      rw [hx] at hy
      cases hy
      exact le_refl _
    · exact downTarget_eq_self hm j x y hp hj hx (by rw [← hp]; exact hy)
  · exact hd.1 j x y hp hx hy

theorem downInv_step {sc : α → K} {l : List α} {i : ℕ}
    (hd : DownInv sc l i) (hm : downTarget sc l i ≠ i) :
    DownInv sc (swapIdx l i (downTarget sc l i)) (downTarget sc l i) := by
  obtain ⟨hpar, hlt, xm, xi, hxm, hxi, hstrict, hmin⟩ := downTarget_ne_self hm
  have hsw := swapIdx_getElem? l hxi hxm
  constructor
  · intro j x y hpj hx hy
    rw [hsw j] at hx
    rw [hsw (par j)] at hy
    by_cases hjm : j = downTarget sc l i
    · rw [if_pos hjm] at hx
      cases hx
      rw [hjm, hpar] at hy
      rw [if_neg (by omega), if_pos rfl] at hy
      cases hy
      exact le_of_lt hstrict
    · rw [if_neg hjm] at hx
      by_cases hji : j = i
      · rw [if_pos hji] at hx
        cases hx
        subst hji
        by_cases hi0 : j = 0
        · have hpii : par j = j := by rw [hi0]; rfl
          rw [hpii] at hy
          rw [if_neg (by omega), if_pos rfl] at hy
          cases hy
          exact le_refl _
        · have hpi := par_lt hi0
          rw [if_neg (by omega), if_neg (by omega)] at hy
          exact hd.2 (downTarget sc l j) xm y hpar (by omega) (Nat.pos_of_ne_zero hi0)
            hxm hy
      · rw [if_neg hji] at hx
        by_cases hpji : par j = i
        · rw [hpji] at hy
          rw [if_neg (by omega), if_pos rfl] at hy
          cases hy
          exact hmin j x hpji hji hx
        · rw [if_neg hpj, if_neg hpji] at hy
          exact hd.1 j x y hpji hx hy
  · intro c x g hpc hcm h0 hc hg
    have hc0 : c ≠ 0 := by
      intro h
      rw [h] at hpc
      simp [par] at hpc
      omega
    have hmc : downTarget sc l i < c := by
      have := par_lt hc0
      omega
    rw [hsw c] at hc
    rw [if_neg (by omega), if_neg (by omega)] at hc
    rw [hsw (par (downTarget sc l i))] at hg
    rw [hpar] at hg
    rw [if_neg (by omega), if_pos rfl] at hg
    cases hg
    exact hd.1 c x xm (by omega) hc (by rw [hpc]; exact hxm)

theorem bubbleDown_isHeap (sc : α → K) : ∀ (n : ℕ) (l : List α) (i : ℕ),
    l.length - i ≤ n → DownInv sc l i → IsHeap sc (bubbleDown sc l i) := by
  intro n
  induction n with
  | zero =>
    intro l i hn hd
    rw [bubbleDown]
    rcases downTarget_cases sc l i with heq | ⟨hlt, hlen⟩
    · rw [dif_pos heq]
      exact isHeap_of_downTarget_self hd heq
    · omega
  | succ n ih =>
    intro l i hn hd
    rw [bubbleDown]
    rcases downTarget_cases sc l i with heq | ⟨hlt, hlen⟩
    · rw [dif_pos heq]
      exact isHeap_of_downTarget_self hd heq
    · have hne : downTarget sc l i ≠ i := by omega
      rw [dif_neg hne]
      refine ih _ _ ?_ (downInv_step hd hne)
      simp only [swapIdx_length]
      omega

/-- Overwriting the root of a heap leaves the sift-down precondition at 0. -/
theorem downInv_setRoot {sc : α → K} {l : List α} (hh : IsHeap sc l) (x : α) :
    DownInv sc (l.set 0 x) 0 := by
  constructor
  · intro j y z hpj hy hz
    have hj0 : j ≠ 0 := by
      intro h
      rw [h] at hpj
      exact hpj rfl
    rw [List.getElem?_set] at hy hz
    rw [if_neg (by omega)] at hy
    rw [if_neg (by omega)] at hz
    exact hh j y z hy hz
  · intro c y g _ _ h0 _ _
    exact absurd h0 (lt_irrefl 0)

theorem heapPush_isHeap {sc : α → K} {l : List α} (hh : IsHeap sc l) (x : α) (k : ℕ) :
    IsHeap sc (heapPush sc l x k) := by
  unfold heapPush
  by_cases hlen : l.length < k
  · rw [if_pos hlen]
    exact bubbleUp_isHeap sc l.length (l ++ [x]) (upInv_append hh x)
  · rw [if_neg hlen]
    cases h0 : l[0]? with
    | none => exact hh
    | some r =>
      show IsHeap sc (if sc r < sc x then bubbleDown sc (l.set 0 x) 0 else l)
      by_cases hr : sc r < sc x
      · rw [if_pos hr]
        exact bubbleDown_isHeap sc (l.set 0 x).length _ 0 (by omega) (downInv_setRoot hh x)
      · rw [if_neg hr]
        exact hh

theorem heapPush_perm_append {sc : α → K} {l : List α} {x : α} {k : ℕ}
    (hlen : l.length < k) : List.Perm (heapPush sc l x k) (l ++ [x]) := by
  unfold heapPush
  rw [if_pos hlen]
  exact bubbleUp_perm sc l.length (l ++ [x])

theorem heapPush_full_lt {sc : α → K} {r x : α} {t : List α} {k : ℕ}
    (hlen : ¬ (r :: t).length < k) (hr : sc r < sc x) :
    List.Perm (heapPush sc (r :: t) x k) (x :: t) := by
  unfold heapPush
  rw [if_neg hlen]
  simp only [List.getElem?_cons_zero]
  rw [if_pos hr]
  exact bubbleDown_perm sc (x :: t).length (x :: t) 0 (by omega)

theorem heapPush_full_ge {sc : α → K} {r x : α} {t : List α} {k : ℕ}
    (hlen : ¬ (r :: t).length < k) (hr : ¬ sc r < sc x) :
    heapPush sc (r :: t) x k = r :: t := by
  unfold heapPush
  rw [if_neg hlen]
  simp only [List.getElem?_cons_zero]
  rw [if_neg hr]

theorem subperm_cons_of_subperm {x : α} {t l : List α} (h : t.Subperm l) :
    (x :: t).Subperm (x :: l) := by
  obtain ⟨w, hw1, hw2⟩ := h
  exact ⟨x :: w, hw1.cons x, hw2.cons₂ x⟩

theorem nodup_of_subperm {l1 l2 : List α} (h : l1.Subperm l2) (h2 : l2.Nodup) :
    l1.Nodup := by
  obtain ⟨w, hw1, hw2⟩ := h
  exact hw1.nodup_iff.mp (hw2.nodup h2)

theorem subperm_map {γ : Type} (f : α → γ) {l1 l2 : List α} (h : l1.Subperm l2) :
    (l1.map f).Subperm (l2.map f) := by
  obtain ⟨w, hw1, hw2⟩ := h
  exact ⟨w.map f, hw1.map f, hw2.map f⟩

/-- The invariant of the `findSimilarEmbeddings` push loop: after folding any
batch of items into a bounded heap that held the top scorers of the items seen
so far, the heap is again a heap holding `min k total` of the items, and every
item left out scores strictly below everything retained (scores are assumed
pairwise distinct). -/
theorem heapInsertAll_spec (sc : α → K) (k : ℕ) (hk : 0 < k) :
    ∀ (items seen h : List α),
      ((seen ++ items).map sc).Nodup →
      IsHeap sc h → h.Subperm seen → h.length = min k seen.length →
      (∀ y ∈ seen, y ∉ h → ∀ z ∈ h, sc y < sc z) →
      IsHeap sc (items.foldl (fun acc x => heapPush sc acc x k) h) ∧
      (items.foldl (fun acc x => heapPush sc acc x k) h).Subperm (seen ++ items) ∧
      (items.foldl (fun acc x => heapPush sc acc x k) h).length =
        min k (seen ++ items).length ∧
      ∀ y ∈ seen ++ items, y ∉ items.foldl (fun acc x => heapPush sc acc x k) h →
        ∀ z ∈ items.foldl (fun acc x => heapPush sc acc x k) h, sc y < sc z := by
  intro items
  induction items with
  | nil =>
    intro seen h hnd hh hsub hlen hev
    simp only [List.foldl_nil, List.append_nil]
    exact ⟨hh, hsub, hlen, hev⟩
  | cons x rest ih =>
    intro seen h hnd hh hsub hlen hev
    have hndseen : (seen.map sc).Nodup :=
      ((List.sublist_append_left seen (x :: rest)).map sc).nodup hnd
    have hseenN : seen.Nodup := List.Nodup.of_map sc hndseen
    have hnd2 : (seen.map sc ++ sc x :: rest.map sc).Nodup := by simpa using hnd
    have hdisj := (List.nodup_append.mp hnd2).2.2
    have hxns : sc x ∉ seen.map sc := fun hmem => hdisj hmem (List.mem_cons_self _ _)
    have hinj : ∀ a ∈ seen, ∀ b ∈ seen, sc a = sc b → a = b := by
      intro a ha b hb
      exact List.inj_on_of_nodup_map hndseen ha hb
    have hhN : h.Nodup := nodup_of_subperm hsub hseenN
    have hhsubset : ∀ z ∈ h, z ∈ seen := fun z hz => hsub.subset hz
    have hstep : IsHeap sc (heapPush sc h x k) ∧
        (heapPush sc h x k).Subperm (seen ++ [x]) ∧
        (heapPush sc h x k).length = min k (seen ++ [x]).length ∧
        ∀ y ∈ seen ++ [x], y ∉ heapPush sc h x k →
          ∀ z ∈ heapPush sc h x k, sc y < sc z := by
      by_cases hlk : h.length < k
      · have hsl : seen.length ≤ h.length := by omega
        have hhs := hsub.perm_of_length_le hsl
        have hpp : List.Perm (heapPush sc h x k) (seen ++ [x]) :=
          (heapPush_perm_append hlk).trans (hhs.append_right [x])
        refine ⟨heapPush_isHeap hh x k, hpp.subperm, ?_, ?_⟩
        · rw [hpp.length_eq]
          simp only [List.length_append, List.length_singleton]
          omega
        · intro y hy hyn z hz
          exact absurd (hpp.mem_iff.mpr hy) hyn
      · have hlenk : h.length = k := by omega
        obtain ⟨r, t, rfl⟩ : ∃ r t, h = r :: t := by
          cases h with
          | nil =>
            exfalso
            simp at hlenk
            omega
          | cons r t => exact ⟨r, t, rfl⟩
        have hr0 : (r :: t)[0]? = some r := List.getElem?_cons_zero
        have hroot : ∀ z ∈ r :: t, sc r ≤ sc z := by
          intro z hz
          obtain ⟨n, hn⟩ := List.mem_iff_getElem?.mp hz
          exact hh.root_le hr0 n z hn
        have hrseen : r ∈ seen := hhsubset r (List.mem_cons_self _ _)
        have htsub : t.Subperm seen := ((List.Sublist.refl t).cons r).subperm.trans hsub
        have hlen2 : t.length + 1 = min k seen.length := by simpa using hlen
        by_cases hrx : sc r < sc x
        · have hpp : List.Perm (heapPush sc (r :: t) x k) (x :: t) :=
            heapPush_full_lt hlk hrx
          refine ⟨heapPush_isHeap hh x k, ?_, ?_, ?_⟩
          · refine hpp.subperm.trans ?_
            refine (subperm_cons_of_subperm htsub).trans ?_
            exact (List.perm_append_singleton x seen).symm.subperm
          · rw [hpp.length_eq]
            simp only [List.length_cons, List.length_append, List.length_singleton]
            omega
          · intro y hy hyn z hz
            have hyn2 : y ∉ x :: t := fun hmem => hyn (hpp.mem_iff.mpr hmem)
            have hz2 : z ∈ x :: t := hpp.mem_iff.mp hz
            rcases List.mem_append.mp hy with hyseen | hyx
            · by_cases hyr : y = r
              · subst hyr
                rcases List.mem_cons.mp hz2 with rfl | hzt
                · exact hrx
                · have hle : sc y ≤ sc z := hroot z (List.mem_cons_of_mem y hzt)
                  have hne2 : y ≠ z := by
                    intro he
                    rw [← he] at hzt
                    exact (List.nodup_cons.mp hhN).1 hzt
                  have hzseen : z ∈ seen := hhsubset z (List.mem_cons_of_mem y hzt)
                  exact lt_of_le_of_ne hle (fun hee => hne2 (hinj y hyseen z hzseen hee))
              · have hynh : y ∉ r :: t := by
                  intro hmem
                  rcases List.mem_cons.mp hmem with rfl | hyt
                  · exact hyr rfl
                  · exact hyn2 (List.mem_cons_of_mem x hyt)
                have hevy := hev y hyseen hynh
                rcases List.mem_cons.mp hz2 with rfl | hzt
                · exact lt_trans (hevy r (List.mem_cons_self _ _)) hrx
                · exact hevy z (List.mem_cons_of_mem r hzt)
            · have hyx2 : y = x := by simpa using hyx
              subst hyx2
              exact absurd (hpp.mem_iff.mpr (List.mem_cons_self _ _)) hyn
        · have heq2 : heapPush sc (r :: t) x k = r :: t := heapPush_full_ge hlk hrx
          rw [heq2]
          refine ⟨hh, ?_, ?_, ?_⟩
          · exact hsub.trans (List.sublist_append_left seen [x]).subperm
          · simp only [List.length_cons, List.length_append, List.length_singleton]
            omega
          · intro y hy hyn z hz
            rcases List.mem_append.mp hy with hyseen | hyx
            · exact hev y hyseen hyn z hz
            · have hyx2 : y = x := by simpa using hyx
              rw [hyx2]
              have hxr : sc x ≤ sc r := le_of_not_lt hrx
              have hne2 : sc x ≠ sc r := by
                intro he
                exact hxns (by rw [he]; exact List.mem_map_of_mem sc hrseen)
              have hxltr : sc x < sc r := lt_of_le_of_ne hxr hne2
              exact lt_of_lt_of_le hxltr (hroot z hz)
    have hndstep : (((seen ++ [x]) ++ rest).map sc).Nodup := by
      have he : (seen ++ [x]) ++ rest = seen ++ x :: rest := by simp
      rw [he]
      exact hnd
    obtain ⟨ihh, ihsub, ihlen, ihev⟩ := ih (seen ++ [x]) (heapPush sc h x k) hndstep
      hstep.1 hstep.2.1 hstep.2.2.1 hstep.2.2.2
    have he : (seen ++ [x]) ++ rest = seen ++ x :: rest := by simp
    rw [he] at ihsub ihlen ihev
    simp only [List.foldl_cons]
    exact ⟨ihh, ihsub, ihlen, ihev⟩

theorem heapInsertAll_props (sc : α → K) (k : ℕ) (items : List α) (hk : 0 < k)
    (hnd : (items.map sc).Nodup) :
    IsHeap sc (heapInsertAll sc k items) ∧
    (heapInsertAll sc k items).Subperm items ∧
    (heapInsertAll sc k items).length = min k items.length ∧
    ∀ y ∈ items, y ∉ heapInsertAll sc k items →
      ∀ z ∈ heapInsertAll sc k items, sc y < sc z := by
  have h := heapInsertAll_spec sc k hk items [] []
    (by simpa using hnd)
    (by intro j x y hx _; simp at hx)
    List.nil_subperm (by simp) (by intro y hy; simp at hy)
  simpa using h

/-- A descending-sorted list with pairwise-distinct keys is strictly
descending. -/
theorem sorted_strict_of_nodup_map {sc : α → K} {L : List α}
    (hs : List.Sorted (fun a b => sc b ≤ sc a) L) (hnd : (L.map sc).Nodup) :
    List.Sorted (fun a b => sc b < sc a) L := by
  have hne : L.Pairwise (fun a b => sc a ≠ sc b) := List.pairwise_map.mp hnd
  have hboth := List.Pairwise.and hs hne
  exact hboth.imp (fun h => lt_of_le_of_ne h.1 (Ne.symm h.2))

/-- Top-K extraction: with pairwise-distinct scores and a positive bound, the
bounded-heap selector returns exactly the truncated descending sort. -/
theorem heapTopK_eq_sort_take (sc : α → K) (k : ℕ) (items : List α) (hk : 0 < k)
    (hnd : (items.map sc).Nodup) :
    heapTopK sc k items =
      (List.insertionSort (fun a b => sc b ≤ sc a) items).take k := by
  obtain ⟨hH, hHsub, hHlen, hHev⟩ := heapInsertAll_props sc k items hk hnd
  have hSP : List.Perm (List.insertionSort (fun a b => sc b ≤ sc a) items) items :=
    List.perm_insertionSort _ items
  have hSS : List.Sorted (fun a b => sc b ≤ sc a)
      (List.insertionSort (fun a b => sc b ≤ sc a) items) :=
    List.sorted_insertionSort _ items
  have hSlen : (List.insertionSort (fun a b => sc b ≤ sc a) items).length =
      items.length := hSP.length_eq
  have hitemsN : items.Nodup := List.Nodup.of_map sc hnd
  have hSN : (List.insertionSort (fun a b => sc b ≤ sc a) items).Nodup :=
    hSP.nodup_iff.mpr hitemsN
  have hSmapN : ((List.insertionSort (fun a b => sc b ≤ sc a) items).map sc).Nodup :=
    ((hSP.map sc).nodup_iff).mpr hnd
  have htakeN : ((List.insertionSort (fun a b => sc b ≤ sc a) items).take k).Nodup :=
    (List.take_sublist k _).nodup hSN
  have hHN : (heapInsertAll sc k items).Nodup := nodup_of_subperm hHsub hitemsN
  have hHmapN : ((heapInsertAll sc k items).map sc).Nodup :=
    nodup_of_subperm (subperm_map sc hHsub) hnd
  have hsubset : ∀ y ∈ (List.insertionSort (fun a b => sc b ≤ sc a) items).take k,
      y ∈ heapInsertAll sc k items := by
    intro y hy
    by_contra hyH
    have hyS : y ∈ List.insertionSort (fun a b => sc b ≤ sc a) items :=
      (List.take_sublist k _).subset hy
    have hyI : y ∈ items := hSP.subset hyS
    have hev := hHev y hyI hyH
    by_cases hcase : items.length ≤ k
    · have hperm : List.Perm (heapInsertAll sc k items) items :=
        hHsub.perm_of_length_le (by omega)
      exact hyH (hperm.mem_iff.mpr hyI)
    · have hHk : (heapInsertAll sc k items).length = k := by omega
      have hHtake : ∀ z ∈ heapInsertAll sc k items,
          z ∈ (List.insertionSort (fun a b => sc b ≤ sc a) items).take k := by
        intro z hz
        have hzS : z ∈ List.insertionSort (fun a b => sc b ≤ sc a) items :=
          hSP.symm.subset (hHsub.subset hz)
        have hzS2 : z ∈ (List.insertionSort (fun a b => sc b ≤ sc a) items).take k ++
            (List.insertionSort (fun a b => sc b ≤ sc a) items).drop k := by
          rw [List.take_append_drop]
          exact hzS
        rcases List.mem_append.mp hzS2 with htk | hdk
        · exact htk
        · exfalso
          have hSS2 := hSS
          rw [← List.take_append_drop k
            (List.insertionSort (fun a b => sc b ≤ sc a) items)] at hSS2
          have hpw := List.pairwise_append.mp hSS2
          exact absurd (hpw.2.2 y hy z hdk) (not_le_of_lt (hev z hz))
      have hcons_nodup : (y :: heapInsertAll sc k items).Nodup := by
        rw [List.nodup_cons]
        exact ⟨hyH, hHN⟩
      have hconssub : (y :: heapInsertAll sc k items).Subperm
          ((List.insertionSort (fun a b => sc b ≤ sc a) items).take k) := by
        apply List.subperm_of_subset hcons_nodup
        intro a ha
        rcases List.mem_cons.mp ha with rfl | haH
        · exact hy
        · exact hHtake a haH
      have hlencontra := hconssub.length_le
      simp only [List.length_cons, List.length_take] at hlencontra
      omega
  have htsub2 : ((List.insertionSort (fun a b => sc b ≤ sc a) items).take k).Subperm
      (heapInsertAll sc k items) := List.subperm_of_subset htakeN hsubset
  have hperm : List.Perm ((List.insertionSort (fun a b => sc b ≤ sc a) items).take k)
      (heapInsertAll sc k items) := by
    apply htsub2.perm_of_length_le
    simp only [List.length_take]
    omega
  have hHsortP : List.Perm
      (List.insertionSort (fun a b => sc b ≤ sc a) (heapInsertAll sc k items))
      ((List.insertionSort (fun a b => sc b ≤ sc a) items).take k) :=
    (List.perm_insertionSort _ _).trans hperm.symm
  have hs1 : List.Sorted (fun a b => sc b < sc a)
      (List.insertionSort (fun a b => sc b ≤ sc a) (heapInsertAll sc k items)) :=
    sorted_strict_of_nodup_map (List.sorted_insertionSort _ _)
      ((((List.perm_insertionSort (fun a b => sc b ≤ sc a)
        (heapInsertAll sc k items)).map sc).nodup_iff).mpr hHmapN)
  have hs2 : List.Sorted (fun a b => sc b < sc a)
      ((List.insertionSort (fun a b => sc b ≤ sc a) items).take k) :=
    sorted_strict_of_nodup_map
      (List.Pairwise.sublist (List.take_sublist k _) hSS)
      (((List.take_sublist k _).map sc).nodup hSmapN)
  haveI : IsAntisymm α (fun a b => sc b < sc a) :=
    ⟨fun a b h1 h2 => absurd (lt_trans h1 h2) (lt_irrefl _)⟩
  unfold heapTopK toSortedArray
  exact List.eq_of_perm_of_sorted hHsortP hs1 hs2

end Heap

section FindSimilar

variable {γ : Type}

/-- An input of `findSimilarEmbeddings`: an embedding with its payload (any
pre-existing optional `score` field is overwritten by both implementations via
the `{ ...item, score }` spread). -/
structure EmbItem (γ : Type) where
  embedding : List ℚ
  content : γ

/-- An item carrying its computed similarity score. -/
structure ScoredItem (γ : Type) where
  embedding : List ℚ
  content : γ
  score : ℝ

/-- The scoring pass both implementations perform in the same order:
`cosineSimilarity(queryEmbedding, item.embedding)` per item, the first thrown
length-mismatch error propagating out. -/
noncomputable def scoreItems (q : List ℚ) :
    List (EmbItem γ) → Except Str (List (ScoredItem γ))
  | [] => .ok []
  | it :: rest =>
    match cosineSimilarity q it.embedding with
    | .error e => .error e
    | .ok s =>
      match scoreItems q rest with
      | .error e => .error e
      | .ok rest2 => .ok (⟨it.embedding, it.content, s⟩ :: rest2)

/-- Model of part_005 `findSimilarEmbeddings`: score, filter by threshold,
stable-sort by score descending, slice to `topK`. -/
noncomputable def findSimilarSort (q : List ℚ) (items : List (EmbItem γ))
    (topK : ℕ) (θ : ℝ) : Except Str (List (ScoredItem γ)) :=
  match scoreItems q items with
  | .error e => .error e
  | .ok ws =>
    .ok ((List.insertionSort (fun a b => ScoredItem.score b ≤ ScoredItem.score a)
      (ws.filter (fun it => decide (θ ≤ it.score)))).take topK)

/-- Model of part_006 `findSimilarEmbeddings`: push each item whose score
clears the threshold into a bounded min-heap of capacity `topK`, then read the
heap in descending score order. -/
noncomputable def findSimilarHeapAux (q : List ℚ) (topK : ℕ) (θ : ℝ) :
    List (EmbItem γ) → List (ScoredItem γ) → Except Str (List (ScoredItem γ))
  | [], h => .ok (toSortedArray ScoredItem.score h)
  | it :: rest, h =>
    match cosineSimilarity q it.embedding with
    | .error e => .error e
    | .ok s =>
      findSimilarHeapAux q topK θ rest
        (if θ ≤ s then heapPush ScoredItem.score h ⟨it.embedding, it.content, s⟩ topK
         else h)

noncomputable def findSimilarHeap (q : List ℚ) (items : List (EmbItem γ))
    (topK : ℕ) (θ : ℝ) : Except Str (List (ScoredItem γ)) :=
  findSimilarHeapAux q topK θ items []

theorem findSimilarHeapAux_ok {q : List ℚ} {topK : ℕ} {θ : ℝ} :
    ∀ (items : List (EmbItem γ)) (ws h : List (ScoredItem γ)),
      scoreItems q items = .ok ws →
      findSimilarHeapAux q topK θ items h =
        .ok (toSortedArray ScoredItem.score
          (ws.foldl (fun acc si =>
            if θ ≤ si.score then heapPush ScoredItem.score acc si topK else acc) h)) := by
  intro items
  induction items with
  | nil =>
    intro ws h hok
    simp only [scoreItems] at hok
    cases hok
    rfl
  | cons it rest ih =>
    intro ws h hok
    cases hcs : cosineSimilarity q it.embedding with
    | error e =>
      simp only [scoreItems, hcs] at hok
      cases hok
    | ok s =>
      cases hrest : scoreItems q rest with
      | error e =>
        simp only [scoreItems, hcs, hrest] at hok
        cases hok
      | ok rest2 =>
        simp only [scoreItems, hcs, hrest] at hok
        cases hok
        simp only [findSimilarHeapAux, hcs]
        exact ih rest2 _ hrest

theorem foldl_guard_eq_foldl_filter {β δ : Type} (f : δ → β → δ) (p : β → Prop)
    [DecidablePred p] :
    ∀ (l : List β) (b : δ),
      l.foldl (fun acc x => if p x then f acc x else acc) b =
        (l.filter (fun x => decide (p x))).foldl f b := by
  intro l
  induction l with
  | nil =>
    intro b
    rfl
  | cons x rest ih =>
    intro b
    by_cases hp : p x
    · rw [List.foldl_cons, if_pos hp, List.filter_cons, if_pos (by simpa using hp),
        List.foldl_cons]
      exact ih (f b x)
    · rw [List.foldl_cons, if_neg hp, List.filter_cons, if_neg (by simpa using hp)]
      exact ih b

/-- With a successful scoring pass, distinct scores and a positive `topK`, the
heap-based selector agrees with the sort-then-slice implementation. -/
theorem findSimilar_equiv (q : List ℚ) (items : List (EmbItem γ)) (topK : ℕ) (θ : ℝ)
    (ws : List (ScoredItem γ)) (hok : scoreItems q items = .ok ws)
    (hk : 0 < topK) (hnd : (ws.map ScoredItem.score).Nodup) :
    findSimilarHeap q items topK θ = findSimilarSort q items topK θ := by
  have hndf : ((ws.filter (fun it => decide (θ ≤ it.score))).map ScoredItem.score).Nodup :=
    ((List.filter_sublist ws).map ScoredItem.score).nodup hnd
  unfold findSimilarHeap findSimilarSort
  rw [findSimilarHeapAux_ok items ws [] hok, hok]
  show Except.ok (toSortedArray ScoredItem.score
      (ws.foldl (fun acc si =>
        if θ ≤ si.score then heapPush ScoredItem.score acc si topK else acc) []))
    = Except.ok ((List.insertionSort (fun a b => ScoredItem.score b ≤ ScoredItem.score a)
      (ws.filter (fun it => decide (θ ≤ it.score)))).take topK)
  rw [foldl_guard_eq_foldl_filter (fun acc si => heapPush ScoredItem.score acc si topK)
    (fun si => θ ≤ si.score) ws []]
  have hext := heapTopK_eq_sort_take ScoredItem.score topK
    (ws.filter (fun it => decide (θ ≤ it.score))) hk hndf
  unfold heapTopK at hext
  exact congrArg Except.ok hext

theorem cosineSimilarity_ex4 : cosineSimilarity [1, 0] [3 / 5, 4 / 5] = .ok (3 / 5) := by
  rw [cosineSimilarity_eq_of_length_eq
    (show ([1, 0] : List ℚ).length = ([3 / 5, 4 / 5] : List ℚ).length from rfl)]
  have h1 : sumSq [(1 : ℚ), 0] = 1 := by norm_num [sumSq]
  have h1b : sumSq [(3 / 5 : ℚ), 4 / 5] = 1 := by norm_num [sumSq]
  have h2 : dotQ ([(1 : ℚ), 0].zip [(3 / 5 : ℚ), 4 / 5]) = 3 / 5 := by
    norm_num [dotQ, List.zip_cons_cons]
  rw [h1, h1b, h2]
  norm_num

/-- Concrete three-item input for the selector equivalence: unit vectors
scoring 1, 0 and 3/5 against the query `[1, 0]`. -/
def itemsC1 : List (EmbItem Unit) :=
  [⟨[1, 0], ()⟩, ⟨[0, 1], ()⟩, ⟨[3 / 5, 4 / 5], ()⟩]

noncomputable def wsC1 : List (ScoredItem Unit) :=
  [⟨[1, 0], (), 1⟩, ⟨[0, 1], (), 0⟩, ⟨[3 / 5, 4 / 5], (), 3 / 5⟩]

theorem scoreItems_exC1 : scoreItems [1, 0] itemsC1 = Except.ok wsC1 := by
  simp only [itemsC1, wsC1, scoreItems, cosineSimilarity_ex1, cosineSimilarity_ex2,
    cosineSimilarity_ex4]

theorem wsC1_scores_nodup : (wsC1.map ScoredItem.score).Nodup := by
  simp only [wsC1, List.map_cons, List.map_nil, List.nodup_cons, List.mem_cons,
    List.not_mem_nil, List.nodup_nil]
  norm_num

end FindSimilar

/-- **C1** (`src/src/utils/min-heap.ts` 26–77, `src/unnamed/part_006` 196–217,
`src/unnamed/part_005` 797–814): for every item list with pairwise-distinct
scores and every positive `k`, pushing all items into the bounded min-heap with
maximum size `k` and reading `toSortedArray` yields exactly the `k`
highest-scoring items in descending score order — the sequence obtained by
sorting everything by score descending and truncating to `k`; and consequently
the heap-based `findSimilarEmbeddings` returns the same result as the
sort-then-slice implementation whenever scoring succeeds with pairwise-distinct
scores and `topK` is positive. -/
theorem claim_C1_topK_refinement :
    (∀ (β κ : Type) [inst : LinearOrder κ] (sc : β → κ) (k : ℕ) (items : List β),
        0 < k → (items.map sc).Nodup →
        heapTopK sc k items =
          (List.insertionSort (fun a b => sc b ≤ sc a) items).take k) ∧
    (∀ (γ : Type) (q : List ℚ) (items : List (EmbItem γ)) (topK : ℕ) (θ : ℝ)
        (ws : List (ScoredItem γ)),
        scoreItems q items = Except.ok ws → 0 < topK →
        (ws.map ScoredItem.score).Nodup →
        findSimilarHeap q items topK θ = findSimilarSort q items topK θ) := by
  constructor
  · intro β κ inst sc k items hk hnd
    exact heapTopK_eq_sort_take sc k items hk hnd
  · intro γ q items topK θ ws hok hk hnd
    exact findSimilar_equiv q items topK θ ws hok hk hnd

/-- Witness for C1: over ℚ with the identity score, the heap selector with
`k = 2` on `[3, 1, 2]` returns `[3, 2]`; and on three unit-vector items with
distinct scores `1, 0, 3/5`, query `[1, 0]`, threshold `1/10` and `topK = 1`,
the heap and sort implementations agree. -/
theorem claim_C1_topK_refinement_witness :
    (0 < 2 ∧ (([3, 1, 2] : List ℚ).map (fun q : ℚ => q)).Nodup ∧
      heapTopK (fun q : ℚ => q) 2 [3, 1, 2] = [3, 2]) ∧
    (scoreItems [1, 0] itemsC1 = Except.ok wsC1 ∧ 0 < 1 ∧
      (wsC1.map ScoredItem.score).Nodup ∧
      findSimilarHeap [1, 0] itemsC1 1 (1 / 10) =
        findSimilarSort [1, 0] itemsC1 1 (1 / 10)) := by
  constructor
  · refine ⟨by decide, by decide, ?_⟩
    rw [claim_C1_topK_refinement.1 ℚ ℚ (fun q : ℚ => q) 2 [3, 1, 2] (by decide) (by decide)]
    decide
  · refine ⟨scoreItems_exC1, by decide, wsC1_scores_nodup, ?_⟩
    exact claim_C1_topK_refinement.2 Unit [1, 0] itemsC1 1 (1 / 10) wsC1
      scoreItems_exC1 (by decide) wsC1_scores_nodup

end Echo
